import Mathlib

/-!
Verification of the ant-colony foraging simulation (`src/scetch.js`).

Shallow embedding conventions used throughout this development:

* JavaScript numbers are IEEE-754 doubles; every double value is a rational
  number, and the arithmetic the program performs on the values relevant to
  the claims below is modelled exactly over `ℚ`.  Where a loop bound or a
  step depends on float rounding we argue exactness in a comment at the
  definition (all the constants involved — 0.5, 1.0, 1.5, and halvings of
  `Math.PI` — are exactly representable, and the additions performed on
  them are exact in double precision).
* `Math.PI` is the double nearest π, which is the rational
  884279719003555 / 2^48; it is embedded as `piF`.
* Two-dimensional JS arrays (`createGrid`) are modelled extensionally as
  functions `ℤ → ℤ → α`; every write the program performs is a pointwise
  update, and every read relevant to a claim is bounds-guarded in the
  source, which the embedding mirrors.
* Randomness (`random(...)`, `p5.Vector.random2D()`) is modelled by
  universally quantified oracle parameters: a stream `ℕ → ℕ` for the maze
  generator's draws, and explicit oracle values for the per-tick agent
  update.  Every concrete execution of the program corresponds to some
  value of the oracles, and the theorems quantify over all of them.
-/

namespace AntsDemo

/-! ## Configuration constants (from `simulationConfig`, src/scetch.js lines 2-42) -/

def NUM_ANTS : ℕ := 600
def ANT_SPEED : ℚ := 1
def DEPOSITION_RATE_EXPLORE : ℚ := 15
def DEPOSITION_RATE_RETURN : ℚ := 15
def PHEROMONE_MAX : ℚ := 255
def PHEROMONE_DURATION : ℕ := 5000
def SENSE_RADIUS : ℚ := 11/10
def GOAL_SENSE_RADIUS : ℚ := 2
def FOOD_DETECTION_RADIUS : ℚ := 1
def COLONY_DETECTION_RADIUS : ℚ := 1
def ANT_HISTORY_LENGTH : ℕ := 20

/-- The exact rational value of the IEEE-754 double `Math.PI`. -/
def piF : ℚ := 884279719003555 / 281474976710656

/-- `TWO_PI` of p5: doubling a double is exact. -/
def twoPiF : ℚ := 2 * piF

/-- `SENSE_ANGLE = Math.PI / 2.5` (2.5 is an exact double). -/
def SENSE_ANGLE : ℚ := piF / (5/2)

/-- `TURN_ANGLE = Math.PI / 6`. -/
def TURN_ANGLE : ℚ := piF / 6

/-! ## Tick structure (`draw`, lines 120-138, and `updateAndDrawAnts`, lines 404-410)

`updateAndDrawAnts` iterates `for (let i = ants.length - 1; i >= 0; i--)`,
calling `ants[i].update()` then `ants[i].display()`.  Since `ants.push`
appends, index 0 is the first-spawned agent, so the loop traverses the
agents from the LAST-spawned down to the first-spawned.  The abstract
per-tick operation sequence is recorded as a list of `TickOp`; the calls
`drawPheromones/drawMaze/drawColony/drawFood` between `updatePheromones`
and `updateAndDrawAnts` are pure rendering (out of engine scope per the
spec) and are not recorded. -/

inductive TickOp where
  | evaporate : TickOp
  | antUpdate (i : ℕ) : TickOp
  | antDisplay (i : ℕ) : TickOp
  | spawnCheck : TickOp
deriving DecidableEq

/-- The index sequence of the loop `for (let i = n - 1; i >= 0; i--)`. -/
def downFrom : ℕ → List ℕ
  | 0 => []
  | n + 1 => n :: downFrom n

/-- Operations performed by `updateAndDrawAnts` on a population of `n` agents,
in order. -/
def updateAndDrawAntsOps (n : ℕ) : List TickOp :=
  (downFrom n).flatMap (fun i => [TickOp.antUpdate i, TickOp.antDisplay i])

/-- Engine operations of one `draw()` tick, in order: one field evaporation
(`updatePheromones`), then the agent loop, then the spawn check
(`spawnNewAnts`). -/
def drawTickOps (n : ℕ) : List TickOp :=
  TickOp.evaporate :: updateAndDrawAntsOps n ++ [TickOp.spawnCheck]

/-- The order in which agent indices receive their per-tick update within a
tick (spawn order = list index order, since `ants.push` appends). -/
def antUpdateOrder (n : ℕ) : List ℕ := downFrom n

theorem downFrom_eq_reverse_range (n : ℕ) : downFrom n = (List.range n).reverse := by
  induction n with
  | zero => rfl
  | succ n ih => simp [downFrom, List.range_succ, ih]

/-! ## Pheromone field (`updatePheromones`, lines 416-431; `Ant.depositPheromone`, lines 602-622) -/

/-- A pheromone grid, modelled extensionally. -/
abbrev PherGrid := ℤ → ℤ → ℚ

/-- `createGrid(cols, rows, v)` (lines 144-154): every cell starts at `v`.
Modelled extensionally; all program reads are in-bounds. -/
def createGridQ (v : ℚ) : PherGrid := fun _ _ => v

/-- The per-cell effect of one evaporation pass (lines 425-428):
`value *= 1.0 - evapRate; if (value < 0.01) value = 0`. -/
def evapCell (rate v : ℚ) : ℚ :=
  let v1 := v * (1 - rate)
  if v1 < 1/100 then 0 else v1

/-- `updatePheromones` applied to one grid: the double loop over
`0 ≤ i < cols`, `0 ≤ j < rows` writes `evapCell` into each in-range cell
exactly once, independently, so its effect is this pointwise map. -/
def updatePheromones (cols rows : ℕ) (rate : ℚ) (g : PherGrid) : PherGrid :=
  fun x y =>
    if 0 ≤ x ∧ x < (cols : ℤ) ∧ 0 ≤ y ∧ y < (rows : ℤ) then evapCell rate (g x y) else g x y

/-- `isValidGridPos` (lines 437-440). -/
def isValidGridPos (cols rows : ℕ) (x y : ℤ) : Bool :=
  0 ≤ x && x < (cols : ℤ) && 0 ≤ y && y < (rows : ℤ)

/-- The grid write of `Ant.depositPheromone` for one channel (lines 613-614 /
618-619): guarded by `isValidGridPos`, add `amount`, then clamp with
`min(value, PHEROMONE_MAX)`. -/
def depositAt (cols rows : ℕ) (g : PherGrid) (x y : ℤ) (amount : ℚ) : PherGrid :=
  if isValidGridPos cols rows x y then
    fun a b => if a = x ∧ b = y then min (g x y + amount) PHEROMONE_MAX else g a b
  else g

/-- The cell-range invariant of the field. -/
def cellInRange (v : ℚ) : Prop := 0 ≤ v ∧ v ≤ PHEROMONE_MAX

theorem evapCell_mem (rate v : ℚ) (hr0 : 0 ≤ rate) (hr1 : rate ≤ 1)
    (hv : cellInRange v) : cellInRange (evapCell rate v) := by
  rcases hv with ⟨hv0, hv1⟩
  unfold evapCell cellInRange
  simp only []
  split
  · exact ⟨le_refl 0, by norm_num [PHEROMONE_MAX]⟩
  · constructor
    · exact mul_nonneg hv0 (by linarith)
    · calc v * (1 - rate) ≤ v * 1 := by
            exact mul_le_mul_of_nonneg_left (by linarith) hv0
        _ = v := mul_one v
        _ ≤ PHEROMONE_MAX := hv1

theorem depositAt_mem (cols rows : ℕ) (g : PherGrid) (x y : ℤ) (amount : ℚ)
    (ha : 0 ≤ amount) (hg : ∀ a b, cellInRange (g a b)) :
    ∀ a b, cellInRange (depositAt cols rows g x y amount a b) := by
  intro a b
  unfold depositAt
  split
  · show cellInRange (if a = x ∧ b = y then min (g x y + amount) PHEROMONE_MAX else g a b)
    split
    · constructor
      · have h0 := (hg x y).1
        have hM : (0:ℚ) ≤ PHEROMONE_MAX := by norm_num [PHEROMONE_MAX]
        exact le_min (by linarith) hM
      · exact min_le_right _ _
    · exact hg a b
  · exact hg a b

/-! ## Claim theorems: C4 and C5 -/

/-- C4 (counterexample): with two agents, the per-tick update order is
`[1, 0]` — the LAST-spawned agent first — not the claimed spawn order
`[0, 1]`. -/
theorem updateOrder_two_is_reversed :
    antUpdateOrder 2 = [1, 0] ∧ antUpdateOrder 2 ≠ [0, 1] := by
  constructor <;> decide

/-- C4 (amended): within every tick the single field evaporation comes
first, then the agents are updated sequentially in REVERSE spawn order
(from the last-spawned agent down to the first-spawned), each agent's
update-and-display completing before the next agent's begins, then the
spawn check runs. -/
theorem drawTick_order (n : ℕ) :
    drawTickOps n =
      TickOp.evaporate ::
        ((List.range n).reverse.flatMap
          (fun i => [TickOp.antUpdate i, TickOp.antDisplay i])) ++ [TickOp.spawnCheck] ∧
    antUpdateOrder n = (List.range n).reverse := by
  refine ⟨?_, downFrom_eq_reverse_range n⟩
  unfold drawTickOps updateAndDrawAntsOps
  rw [downFrom_eq_reverse_range]

/-- C5: every cell of a pheromone grid stays in `[0, PHEROMONE_MAX]`:
cells start at 0 (`createGrid(..., 0)`), one evaporation pass with
`0 ≤ rate ≤ 1` preserves the range, and one deposit of a non-negative
amount (then clamped by `min(·, PHEROMONE_MAX)`) preserves the range, so
repeated deposits never drive a cell above `PHEROMONE_MAX`. -/
theorem pheromone_grid_range_invariant (cols rows : ℕ) (rate amount : ℚ) (x y : ℤ)
    (g : PherGrid)
    (hr0 : 0 ≤ rate) (hr1 : rate ≤ 1) (ha : 0 ≤ amount)
    (hg : ∀ a b, cellInRange (g a b)) :
    (∀ a b, cellInRange (createGridQ 0 a b)) ∧
    (∀ a b, cellInRange (updatePheromones cols rows rate g a b)) ∧
    (∀ a b, cellInRange (depositAt cols rows g x y amount a b)) := by
  refine ⟨?_, ?_, depositAt_mem cols rows g x y amount ha hg⟩
  · intro a b
    exact ⟨le_refl 0, by norm_num [createGridQ, PHEROMONE_MAX]⟩
  · intro a b
    unfold updatePheromones
    split
    · exact evapCell_mem rate (g a b) hr0 hr1 (hg a b)
    · exact hg a b

/-- C5 witness: the invariant theorem applied at a concrete configuration. -/
theorem pheromone_grid_range_invariant_witness :
    ((0:ℚ) ≤ 1/2 ∧ (1/2:ℚ) ≤ 1 ∧ (0:ℚ) ≤ 15) ∧
    (∀ a b, cellInRange (updatePheromones 5 5 (1/2) (createGridQ 100) a b)) := by
  have h := pheromone_grid_range_invariant 5 5 (1/2) 15 1 1 (createGridQ 100)
    (by norm_num) (by norm_num)
    (by norm_num)
    (fun a b => ⟨by norm_num [createGridQ], by norm_num [createGridQ, PHEROMONE_MAX]⟩)
  exact ⟨⟨by norm_num, by norm_num, by norm_num⟩, h.2.1⟩

/-! ## C8: decay monotonicity and finite extinction -/

theorem evapCell_nonneg (rate v : ℚ) (hr1 : rate ≤ 1) (hv : 0 ≤ v) :
    0 ≤ evapCell rate v := by
  unfold evapCell
  simp only []
  split
  · exact le_refl 0
  · exact mul_nonneg hv (by linarith)

theorem evapCell_le_self (rate v : ℚ) (hr0 : 0 ≤ rate) (hr1 : rate ≤ 1) (hv : 0 ≤ v) :
    evapCell rate v ≤ v := by
  unfold evapCell
  simp only []
  split
  · exact hv
  · calc v * (1 - rate) ≤ v * 1 := mul_le_mul_of_nonneg_left (by linarith) hv
      _ = v := mul_one v

theorem evapCell_le_mul (rate v : ℚ) (hr1 : rate ≤ 1) (hv : 0 ≤ v) :
    evapCell rate v ≤ v * (1 - rate) := by
  unfold evapCell
  simp only []
  split
  · exact mul_nonneg hv (by linarith)
  · exact le_refl _

/-- Once a cell value is non-negative and below the snap threshold, the next
evaporation pass snaps it to exactly 0. -/
theorem evapCell_zero_of_small (rate v : ℚ) (hr0 : 0 ≤ rate) (hr1 : rate ≤ 1)
    (hv0 : 0 ≤ v) (hv : v < 1/100) : evapCell rate v = 0 := by
  unfold evapCell
  have h : v * (1 - rate) < 1/100 := by
    calc v * (1 - rate) ≤ v * 1 := mul_le_mul_of_nonneg_left (by linarith) hv0
      _ = v := mul_one v
      _ < 1/100 := hv
  simp only []
  rw [if_pos h]

theorem evapCell_iter_nonneg (rate v : ℚ) (hr1 : rate ≤ 1) (hv : 0 ≤ v) (n : ℕ) :
    0 ≤ (evapCell rate)^[n] v := by
  induction n with
  | zero => exact hv
  | succ n ih =>
    rw [Function.iterate_succ_apply']
    exact evapCell_nonneg rate _ hr1 ih

theorem evapCell_iter_le_geom (rate v : ℚ) (hr0 : 0 ≤ rate) (hr1 : rate ≤ 1)
    (hv : 0 ≤ v) (n : ℕ) : (evapCell rate)^[n] v ≤ v * (1 - rate) ^ n := by
  induction n with
  | zero => simp
  | succ n ih =>
    rw [Function.iterate_succ_apply']
    calc evapCell rate ((evapCell rate)^[n] v)
        ≤ ((evapCell rate)^[n] v) * (1 - rate) :=
          evapCell_le_mul rate _ hr1 (evapCell_iter_nonneg rate v hr1 hv n)
      _ ≤ (v * (1 - rate) ^ n) * (1 - rate) :=
          mul_le_mul_of_nonneg_right ih (by linarith)
      _ = v * (1 - rate) ^ (n + 1) := by ring

theorem updatePheromones_apply_pos (cols rows : ℕ) (rate : ℚ) (h : PherGrid)
    (x y : ℤ) (hb : 0 ≤ x ∧ x < (cols : ℤ) ∧ 0 ≤ y ∧ y < (rows : ℤ)) :
    updatePheromones cols rows rate h x y = evapCell rate (h x y) := by
  unfold updatePheromones
  rw [if_pos hb]

/-- In-range cells of the iterated grid evaporation evolve by cell-wise
iteration of `evapCell`. -/
theorem updatePheromones_iterate_apply (cols rows : ℕ) (rate : ℚ) (g : PherGrid)
    (x y : ℤ) (hx0 : 0 ≤ x) (hx : x < (cols : ℤ)) (hy0 : 0 ≤ y) (hy : y < (rows : ℤ)) :
    ∀ n, ((updatePheromones cols rows rate)^[n] g) x y = (evapCell rate)^[n] (g x y) := by
  intro n
  induction n with
  | zero => rfl
  | succ n ih =>
    rw [Function.iterate_succ_apply', Function.iterate_succ_apply']
    rw [updatePheromones_apply_pos cols rows rate _ x y ⟨hx0, hx, hy0, hy⟩, ih]

/-- C8: with zero deposition, for any evaporation rate `0 < rate ≤ 1` and any
initial in-range cell value in `[0, PHEROMONE_MAX]`, the per-cell value
sequence under repeated `updatePheromones` passes is non-increasing and is
exactly 0 from some finite step on. -/
theorem evaporation_monotone_eventually_zero (cols rows : ℕ) (rate : ℚ) (g : PherGrid)
    (x y : ℤ) (hr0 : 0 < rate) (hr1 : rate ≤ 1)
    (hx0 : 0 ≤ x) (hx : x < (cols : ℤ)) (hy0 : 0 ≤ y) (hy : y < (rows : ℤ))
    (hv0 : 0 ≤ g x y) (hv1 : g x y ≤ PHEROMONE_MAX) :
    (∀ n, ((updatePheromones cols rows rate)^[n+1] g) x y ≤
          ((updatePheromones cols rows rate)^[n] g) x y) ∧
    (∃ N, ∀ n, N ≤ n → ((updatePheromones cols rows rate)^[n] g) x y = 0) := by
  have hpt := updatePheromones_iterate_apply cols rows rate g x y hx0 hx hy0 hy
  constructor
  · intro n
    rw [hpt n, hpt (n+1), Function.iterate_succ_apply']
    exact evapCell_le_self rate _ (le_of_lt hr0) hr1 (evapCell_iter_nonneg rate _ hr1 hv0 n)
  · -- find a step where the geometric bound drops below the snap threshold
    have hq1 : 1 - rate < 1 := by linarith
    have key : ∃ N, (evapCell rate)^[N] (g x y) = 0 := by
      rcases eq_or_lt_of_le hv0 with h0 | hpos
    -- if the cell starts at 0 it is snapped to 0 on the first pass
      · refine ⟨1, ?_⟩
        rw [Function.iterate_one, ← h0]
        exact evapCell_zero_of_small rate 0 (le_of_lt hr0) hr1 (le_refl 0) (by norm_num)
      · obtain ⟨n, hn⟩ := exists_pow_lt_of_lt_one
          (x := (1/100) / g x y) (y := 1 - rate) (by positivity) hq1
        refine ⟨n + 1, ?_⟩
        have hsmall : (evapCell rate)^[n] (g x y) < 1/100 := by
          have hb := evapCell_iter_le_geom rate (g x y) (le_of_lt hr0) hr1 hv0 n
          have : g x y * (1 - rate) ^ n < g x y * ((1/100) / g x y) :=
            mul_lt_mul_of_pos_left hn hpos
          rw [mul_div_cancel₀ _ (ne_of_gt hpos)] at this
          linarith
        rw [Function.iterate_succ_apply']
        exact evapCell_zero_of_small rate _ (le_of_lt hr0) hr1
          (evapCell_iter_nonneg rate _ hr1 hv0 n) hsmall
    obtain ⟨N, hN⟩ := key
    refine ⟨N, ?_⟩
    intro n hn
    rw [hpt n]
    obtain ⟨k, rfl⟩ := Nat.exists_eq_add_of_le hn
    induction k with
    | zero => simpa using hN
    | succ k ih =>
      have hk : ((evapCell rate)^[N + k] (g x y)) = 0 := ih (by omega)
      rw [show N + (k+1) = (N + k) + 1 by omega, Function.iterate_succ_apply', hk]
      exact evapCell_zero_of_small rate 0 (le_of_lt hr0) hr1 (le_refl 0) (by norm_num)

/-- C8 witness: the decay theorem applied at a concrete configuration. -/
theorem evaporation_monotone_eventually_zero_witness :
    ((0:ℚ) < 1/2 ∧ (1/2:ℚ) ≤ 1 ∧ (0:ℚ) ≤ createGridQ 255 0 0 ∧
      createGridQ 255 0 0 ≤ PHEROMONE_MAX) ∧
    (∃ N, ∀ n, N ≤ n → ((updatePheromones 3 3 (1/2))^[n] (createGridQ 255)) 0 0 = 0) := by
  have h := evaporation_monotone_eventually_zero 3 3 (1/2) (createGridQ 255) 0 0
    (by norm_num) (by norm_num) (by norm_num) (by norm_num) (by norm_num) (by norm_num)
    (by norm_num [createGridQ]) (by norm_num [createGridQ, PHEROMONE_MAX])
  exact ⟨⟨by norm_num, by norm_num, by norm_num [createGridQ],
    by norm_num [createGridQ, PHEROMONE_MAX]⟩, h.2⟩

/-! ## findValidPosition (`findValidPosition`, lines 293-319)

The maze grid holds 0 (= Path) or 1 (= Wall).  JS fault semantics of the
one unguarded access `maze[targetX][targetY]` (line 302): if the first
index is outside the column array the expression `maze[targetX]` is
`undefined` and indexing it throws, which `mazeRead` models as `.error ()`;
if only the second index is out of range the access yields `undefined`,
which compares unequal to 0 (modelled as `none`).  Every maze access inside
the ring scan sits behind the short-circuit guard
`isValidGridPos(checkX, checkY) &&` exactly as in line 312. -/

abbrev Cell := ℤ × ℤ

abbrev MazeGrid := ℤ → ℤ → ℕ

/-- p5 `constrain(n, low, high) = max(min(n, high), low)`. -/
def constrain (n lo hi : ℤ) : ℤ := max (min n hi) lo

/-- The integer values `lo, lo+1, ..., hi` in order (a JS `for` loop counter). -/
def intRange (lo hi : ℤ) : List ℤ :=
  (List.range (hi + 1 - lo).toNat).map (fun k : ℕ => lo + (k : ℤ))

/-- The JS 2-D array read `maze[x][y]` with its fault semantics. -/
def mazeRead (cols rows : ℕ) (m : MazeGrid) (x y : ℤ) : Except Unit (Option ℕ) :=
  if 0 ≤ x ∧ x < (cols : ℤ) then
    .ok (if 0 ≤ y ∧ y < (rows : ℤ) then some (m x y) else none)
  else .error ()

/-- The cells probed by the spiral search of `findValidPosition`, in probe
order: `radius` from 1 while `< max(cols, rows)`; `i` then `j` from
`-radius` to `radius`; the cell is skipped (`continue`) unless
`|i| = radius` or `|j| = radius`. -/
def ringCandidates (tx ty : ℤ) (cols rows : ℕ) : List Cell :=
  (List.range (max cols rows - 1)).flatMap (fun r0 =>
    let radius : ℤ := (r0 : ℤ) + 1
    (intRange (-radius) radius).flatMap (fun i =>
      (intRange (-radius) radius).filterMap (fun j =>
        if |i| ≠ radius ∧ |j| ≠ radius then none
        else some (tx + i, ty + j))))

/-- The body of the spiral search: return the first candidate that passes
`isValidGridPos(checkX, checkY) && maze[checkX][checkY] === 0`. -/
def fvpScan (cols rows : ℕ) (m : MazeGrid) : List Cell → Option Cell
  | [] => none
  | c :: cs =>
    if isValidGridPos cols rows c.1 c.2 && (m c.1 c.2 == 0) then some c
    else fvpScan cols rows m cs

/-- The body of `findValidPosition` after the target clamp (lines 302-318):
return the clamped target if it is a Path cell, otherwise spiral-search
outwards; `none` models the JS `null` fall-through. -/
def fvpAfterClamp (cols rows : ℕ) (m : MazeGrid) (tx ty : ℤ) :
    Except Unit (Option Cell) :=
  match mazeRead cols rows m tx ty with
  | .error e => .error e
  | .ok v =>
    if v = some 0 then .ok (some (tx, ty))
    else .ok (fvpScan cols rows m (ringCandidates tx ty cols rows))

/-- `findValidPosition(targetX, targetY)`: clamp the target into the grid
(lines 299-300), then run the Path-or-spiral search. -/
def findValidPosition (cols rows : ℕ) (m : MazeGrid) (targetX targetY : ℤ) :
    Except Unit (Option Cell) :=
  fvpAfterClamp cols rows m
    (constrain targetX 0 ((cols : ℤ) - 1)) (constrain targetY 0 ((rows : ℤ) - 1))

theorem constrain_eq_self (n lo hi : ℤ) (h1 : lo ≤ n) (h2 : n ≤ hi) :
    constrain n lo hi = n := by
  unfold constrain; omega

theorem constrain_mem (n lo hi : ℤ) (h : lo ≤ hi) :
    lo ≤ constrain n lo hi ∧ constrain n lo hi ≤ hi := by
  unfold constrain; omega

theorem mem_intRange (a lo hi : ℤ) : a ∈ intRange lo hi ↔ lo ≤ a ∧ a ≤ hi := by
  unfold intRange
  rw [List.mem_map]
  constructor
  · rintro ⟨k, hk, rfl⟩
    rw [List.mem_range] at hk
    omega
  · intro h
    refine ⟨(a - lo).toNat, ?_, ?_⟩
    · rw [List.mem_range]; omega
    · omega

theorem fvpScan_eq_find? (cols rows : ℕ) (m : MazeGrid) (l : List Cell) :
    fvpScan cols rows m l =
      l.find? (fun c => isValidGridPos cols rows c.1 c.2 && (m c.1 c.2 == 0)) := by
  induction l with
  | nil => rfl
  | cons c cs ih =>
    unfold fvpScan
    rw [List.find?_cons]
    split
    · rename_i h
      rw [h]
    · rename_i h
      rw [Bool.not_eq_true] at h
      rw [h, ih]

theorem fvpScan_some (cols rows : ℕ) (m : MazeGrid) (l : List Cell) (c : Cell)
    (h : fvpScan cols rows m l = some c) :
    isValidGridPos cols rows c.1 c.2 = true ∧ m c.1 c.2 = 0 := by
  rw [fvpScan_eq_find?] at h
  have := List.find?_some h
  rw [Bool.and_eq_true, beq_iff_eq] at this
  exact this

theorem isValidGridPos_iff (cols rows : ℕ) (x y : ℤ) :
    isValidGridPos cols rows x y = true ↔
      0 ≤ x ∧ x < (cols : ℤ) ∧ 0 ≤ y ∧ y < (rows : ℤ) := by
  unfold isValidGridPos
  simp only [Bool.and_eq_true, decide_eq_true_eq]
  tauto

/-- C10: for any integer target coordinates, with non-degenerate grid
dimensions, `findValidPosition` first clamps the target into
`[0, cols-1] × [0, rows-1]`, never faults (its single unguarded maze
access is at the clamped, in-bounds target; every ring access is behind
the `isValidGridPos` guard by construction of `fvpScan`), and any cell it
returns is in-bounds and Path. -/
theorem fvpAfterClamp_path (cols rows : ℕ) (m : MazeGrid) (tx ty : ℤ)
    (hbx : 0 ≤ tx ∧ tx < (cols : ℤ)) (hby : 0 ≤ ty ∧ ty < (rows : ℤ))
    (h0 : m tx ty = 0) :
    fvpAfterClamp cols rows m tx ty = .ok (some (tx, ty)) := by
  unfold fvpAfterClamp mazeRead
  rw [if_pos hbx, if_pos hby]
  show (if (some (m tx ty) : Option ℕ) = some 0 then _ else _) = _
  rw [if_pos (by rw [h0])]

theorem fvpAfterClamp_wall (cols rows : ℕ) (m : MazeGrid) (tx ty : ℤ)
    (hbx : 0 ≤ tx ∧ tx < (cols : ℤ)) (hby : 0 ≤ ty ∧ ty < (rows : ℤ))
    (h1 : m tx ty ≠ 0) :
    fvpAfterClamp cols rows m tx ty =
      .ok (fvpScan cols rows m (ringCandidates tx ty cols rows)) := by
  unfold fvpAfterClamp mazeRead
  rw [if_pos hbx, if_pos hby]
  show (if (some (m tx ty) : Option ℕ) = some 0 then _ else _) = _
  rw [if_neg (by simp [h1])]

/-- C10: for any integer target coordinates, with non-degenerate grid
dimensions, `findValidPosition` first clamps the target into
`[0, cols-1] × [0, rows-1]`, never faults (its single unguarded maze
access is at the clamped, in-bounds target; every ring access is behind
the `isValidGridPos` guard by construction of `fvpScan`), and any cell it
returns is in-bounds and Path. -/
theorem findValidPosition_safe (cols rows : ℕ) (m : MazeGrid) (targetX targetY : ℤ)
    (hc : 1 ≤ cols) (hr : 1 ≤ rows) :
    (0 ≤ constrain targetX 0 ((cols : ℤ) - 1) ∧
      constrain targetX 0 ((cols : ℤ) - 1) < (cols : ℤ) ∧
      0 ≤ constrain targetY 0 ((rows : ℤ) - 1) ∧
      constrain targetY 0 ((rows : ℤ) - 1) < (rows : ℤ)) ∧
    findValidPosition cols rows m targetX targetY ≠ .error () ∧
    (∀ c, findValidPosition cols rows m targetX targetY = .ok (some c) →
      isValidGridPos cols rows c.1 c.2 = true ∧ m c.1 c.2 = 0) := by
  have hcx := constrain_mem targetX 0 ((cols : ℤ) - 1) (by omega)
  have hcy := constrain_mem targetY 0 ((rows : ℤ) - 1) (by omega)
  have hbx : 0 ≤ constrain targetX 0 ((cols : ℤ) - 1) ∧
      constrain targetX 0 ((cols : ℤ) - 1) < (cols : ℤ) := ⟨hcx.1, by omega⟩
  have hby : 0 ≤ constrain targetY 0 ((rows : ℤ) - 1) ∧
      constrain targetY 0 ((rows : ℤ) - 1) < (rows : ℤ) := ⟨hcy.1, by omega⟩
  refine ⟨⟨hbx.1, hbx.2, hby.1, hby.2⟩, ?_, ?_⟩
  · unfold findValidPosition
    by_cases h0 : m (constrain targetX 0 ((cols : ℤ) - 1))
        (constrain targetY 0 ((rows : ℤ) - 1)) = 0
    · rw [fvpAfterClamp_path cols rows m _ _ hbx hby h0]
      simp
    · rw [fvpAfterClamp_wall cols rows m _ _ hbx hby h0]
      simp
  · intro c hc'
    unfold findValidPosition at hc'
    by_cases h0 : m (constrain targetX 0 ((cols : ℤ) - 1))
        (constrain targetY 0 ((rows : ℤ) - 1)) = 0
    · rw [fvpAfterClamp_path cols rows m _ _ hbx hby h0] at hc'
      have : (constrain targetX 0 ((cols : ℤ) - 1),
          constrain targetY 0 ((rows : ℤ) - 1)) = c := by
        simpa using hc'
      subst this
      refine ⟨?_, h0⟩
      rw [isValidGridPos_iff]
      exact ⟨hbx.1, hbx.2, hby.1, hby.2⟩
    · rw [fvpAfterClamp_wall cols rows m _ _ hbx hby h0] at hc'
      have hsc : fvpScan cols rows m (ringCandidates
          (constrain targetX 0 ((cols : ℤ) - 1))
          (constrain targetY 0 ((rows : ℤ) - 1)) cols rows) = some c := by
        simpa using hc'
      exact fvpScan_some cols rows m _ c hsc

/-- A cell at Chebyshev distance `r ≥ 1` from the target, with
`r ≤ max cols rows - 1`, appears on the ring of radius `r` in the probe
list. -/
theorem mem_ringCandidates (tx ty : ℤ) (cols rows : ℕ) (c : Cell)
    (hne : c ≠ (tx, ty))
    (hcheb : max (c.1 - tx).natAbs (c.2 - ty).natAbs ≤ max cols rows - 1) :
    c ∈ ringCandidates tx ty cols rows := by
  set i : ℤ := c.1 - tx with hi
  set j : ℤ := c.2 - ty with hj
  set r : ℕ := max i.natAbs j.natAbs with hr
  have hr1 : 1 ≤ r := by
    by_contra h
    apply hne
    have hi0 : i = 0 := by omega
    have hj0 : j = 0 := by omega
    have : c.1 = tx := by omega
    have : c.2 = ty := by omega
    exact Prod.ext (by omega) (by omega)
  unfold ringCandidates
  rw [List.mem_flatMap]
  refine ⟨r - 1, ?_, ?_⟩
  · rw [List.mem_range]; omega
  · simp only []
    rw [List.mem_flatMap]
    have hrad : ((r - 1 : ℕ) : ℤ) + 1 = (r : ℤ) := by omega
    refine ⟨i, ?_, ?_⟩
    · rw [mem_intRange]; omega
    · rw [List.mem_filterMap]
      refine ⟨j, ?_, ?_⟩
      · rw [mem_intRange]; omega
      · have hai : |i| = (i.natAbs : ℤ) := Int.abs_eq_natAbs i
        have haj : |j| = (j.natAbs : ℤ) := Int.abs_eq_natAbs j
        have hor : |i| = ((r - 1 : ℕ) : ℤ) + 1 ∨ |j| = ((r - 1 : ℕ) : ℤ) + 1 := by
          rw [hai, haj]
          rcases max_choice i.natAbs j.natAbs with h | h
          · left; omega
          · right; omega
        rw [if_neg (by tauto)]
        have : (tx + i, ty + j) = c := Prod.ext (by omega) (by omega)
        rw [this]

/-- C7: behaviour of `findValidPosition` on an in-bounds target:
(1) a Path target is returned exactly;
(2) a Wall target yields the first in-bounds Path cell of the ring scan
    order (`ringCandidates`, rings of increasing Chebyshev radius,
    perimeter cells only);
(3) if every in-bounds cell is Wall the result is `none`;
(4) if any in-bounds Path cell exists the search succeeds. -/
theorem findValidPosition_spec (cols rows : ℕ) (m : MazeGrid) (targetX targetY : ℤ)
    (hbx : 0 ≤ targetX ∧ targetX < (cols : ℤ))
    (hby : 0 ≤ targetY ∧ targetY < (rows : ℤ)) :
    (m targetX targetY = 0 →
      findValidPosition cols rows m targetX targetY = .ok (some (targetX, targetY))) ∧
    (m targetX targetY ≠ 0 →
      findValidPosition cols rows m targetX targetY =
        .ok ((ringCandidates targetX targetY cols rows).find?
          (fun c => isValidGridPos cols rows c.1 c.2 && (m c.1 c.2 == 0)))) ∧
    ((∀ x y, 0 ≤ x → x < (cols : ℤ) → 0 ≤ y → y < (rows : ℤ) → m x y ≠ 0) →
      findValidPosition cols rows m targetX targetY = .ok none) ∧
    ((∃ x y, 0 ≤ x ∧ x < (cols : ℤ) ∧ 0 ≤ y ∧ y < (rows : ℤ) ∧ m x y = 0) →
      ∃ c, findValidPosition cols rows m targetX targetY = .ok (some c)) := by
  have hclx : constrain targetX 0 ((cols : ℤ) - 1) = targetX :=
    constrain_eq_self _ _ _ hbx.1 (by omega)
  have hcly : constrain targetY 0 ((rows : ℤ) - 1) = targetY :=
    constrain_eq_self _ _ _ hby.1 (by omega)
  have hpath : m targetX targetY = 0 →
      findValidPosition cols rows m targetX targetY = .ok (some (targetX, targetY)) := by
    intro h0
    unfold findValidPosition
    rw [hclx, hcly]
    exact fvpAfterClamp_path cols rows m _ _ hbx hby h0
  have hwall : m targetX targetY ≠ 0 →
      findValidPosition cols rows m targetX targetY =
        .ok ((ringCandidates targetX targetY cols rows).find?
          (fun c => isValidGridPos cols rows c.1 c.2 && (m c.1 c.2 == 0))) := by
    intro h1
    unfold findValidPosition
    rw [hclx, hcly]
    rw [fvpAfterClamp_wall cols rows m _ _ hbx hby h1, fvpScan_eq_find?]
  refine ⟨hpath, hwall, ?_, ?_⟩
  · intro hall
    have h1 : m targetX targetY ≠ 0 := hall _ _ hbx.1 hbx.2 hby.1 hby.2
    rw [hwall h1]
    have : (ringCandidates targetX targetY cols rows).find?
        (fun c => isValidGridPos cols rows c.1 c.2 && (m c.1 c.2 == 0)) = none := by
      rw [List.find?_eq_none]
      intro c _ hc
      rw [Bool.and_eq_true, beq_iff_eq] at hc
      rw [isValidGridPos_iff] at hc
      exact hall c.1 c.2 hc.1.1 hc.1.2.1 hc.1.2.2.1 hc.1.2.2.2 hc.2
    rw [this]
  · rintro ⟨x, y, hx0, hx1, hy0, hy1, hxy⟩
    by_cases h0 : m targetX targetY = 0
    · exact ⟨(targetX, targetY), hpath h0⟩
    · rw [hwall h0]
      have hmem : ((x, y) : Cell) ∈ ringCandidates targetX targetY cols rows := by
        apply mem_ringCandidates
        · intro hcontra
          apply h0
          rw [← hxy]
          have h1 : x = targetX := congrArg Prod.fst hcontra
          have h2 : y = targetY := congrArg Prod.snd hcontra
          rw [h1, h2]
        · simp only []
          omega
      have hsome : ((ringCandidates targetX targetY cols rows).find?
          (fun c => isValidGridPos cols rows c.1 c.2 && (m c.1 c.2 == 0))).isSome = true := by
        rw [List.find?_isSome]
        refine ⟨(x, y), hmem, ?_⟩
        rw [Bool.and_eq_true, beq_iff_eq]
        refine ⟨?_, hxy⟩
        rw [isValidGridPos_iff]
        exact ⟨hx0, hx1, hy0, hy1⟩
      obtain ⟨c, hc⟩ := Option.isSome_iff_exists.mp hsome
      exact ⟨c, by rw [hc]⟩

/-- C7 witness: the characterization applied at concrete mazes — a Path
target returned exactly; a Wall target resolved by the ring scan; an
all-Wall maze yielding `none`. -/
theorem findValidPosition_spec_witness :
    findValidPosition 2 2 (fun _ _ => 0) 1 1 = .ok (some (1, 1)) ∧
    (∃ c, findValidPosition 2 2
      (fun x y => if x = 0 ∧ y = 0 then 1 else 0) 0 0 = .ok (some c)) ∧
    findValidPosition 1 1 (fun _ _ => 1) 0 0 = .ok none := by
  refine ⟨?_, ?_, ?_⟩
  · exact (findValidPosition_spec 2 2 (fun _ _ => 0) 1 1
      (by norm_num) (by norm_num)).1 rfl
  · exact (findValidPosition_spec 2 2 (fun x y => if x = 0 ∧ y = 0 then 1 else 0) 0 0
      (by norm_num) (by norm_num)).2.2.2 ⟨1, 0, by norm_num⟩
  · exact (findValidPosition_spec 1 1 (fun _ _ => 1) 0 0
      (by norm_num) (by norm_num)).2.2.1 (fun x y _ _ _ _ => by norm_num)

/-- C10 witness: the safety theorem applied to far-out-of-grid target
coordinates on a 1×1 all-Wall maze. -/
theorem findValidPosition_safe_witness :
    (1 ≤ 1 ∧ 1 ≤ 1) ∧
    findValidPosition 1 1 (fun _ _ => 1) 100 (-50) ≠ .error () := by
  have h := findValidPosition_safe 1 1 (fun _ _ => 1) 100 (-50) (by norm_num) (by norm_num)
  exact ⟨⟨le_refl 1, le_refl 1⟩, h.2.1⟩

/-! ## C6: turn clamping in `Ant.move` (lines 521-534)

`move()` computes `angleDiff = desiredAngle - currentAngle`, normalizes it
with `while (angleDiff > PI) angleDiff -= TWO_PI;` then
`while (angleDiff < -PI) angleDiff += TWO_PI;`, clamps the result to
`±TURN_ANGLE` with p5 `constrain`, and sets
`newAngle = currentAngle + turn`.  The while loops are embedded as
well-founded recursions on exact rational angle arithmetic. -/

/-- p5 `constrain` on rationals: `max(min(n, high), low)`. -/
def constrainQ (n lo hi : ℚ) : ℚ := max (min n hi) lo

/-- `while (angleDiff > PI) angleDiff -= TWO_PI`. -/
def sub2piLoop (x : ℚ) : ℚ :=
  if piF < x then sub2piLoop (x - twoPiF) else x
termination_by (⌈x / twoPiF⌉).toNat
decreasing_by
  have h2 : (0:ℚ) < twoPiF := by norm_num [twoPiF, piF]
  have hd : (x - twoPiF)/twoPiF = x/twoPiF - 1 := by field_simp
  rw [hd]
  rw [show x / twoPiF - 1 = x / twoPiF - (1:ℤ) by norm_num]
  rw [Int.ceil_sub_int]
  have hpos : 0 < ⌈x / twoPiF⌉ := by
    apply Int.ceil_pos.mpr
    have hpi : (0:ℚ) < piF := by norm_num [piF]
    apply div_pos (by linarith) h2
  omega

/-- `while (angleDiff < -PI) angleDiff += TWO_PI`. -/
def add2piLoop (x : ℚ) : ℚ :=
  if x < -piF then add2piLoop (x + twoPiF) else x
termination_by (⌈(-x) / twoPiF⌉).toNat
decreasing_by
  have h2 : (0:ℚ) < twoPiF := by norm_num [twoPiF, piF]
  have hd : (-(x + twoPiF))/twoPiF = (-x)/twoPiF - 1 := by field_simp; ring
  rw [hd]
  rw [show (-x) / twoPiF - 1 = (-x) / twoPiF - (1:ℤ) by norm_num]
  rw [Int.ceil_sub_int]
  have hpos : 0 < ⌈(-x) / twoPiF⌉ := by
    apply Int.ceil_pos.mpr
    have hpi : (0:ℚ) < piF := by norm_num [piF]
    apply div_pos (by linarith) h2
  omega

/-- The heading chosen by `move()` before the optional random perturbation:
steer toward `desiredAngle`, turning at most `TURN_ANGLE` in the direction
of the normalized angle difference. -/
def moveNewAngle (desiredAngle currentAngle : ℚ) : ℚ :=
  currentAngle +
    constrainQ (add2piLoop (sub2piLoop (desiredAngle - currentAngle)))
      (-TURN_ANGLE) TURN_ANGLE

theorem sub2piLoop_spec (x : ℚ) :
    (∃ k : ℤ, sub2piLoop x = x - twoPiF * k) ∧ sub2piLoop x ≤ piF := by
  induction x using sub2piLoop.induct with
  | case1 x hx ih =>
    rw [sub2piLoop, if_pos hx]
    obtain ⟨⟨k, hk⟩, hle⟩ := ih
    exact ⟨⟨k + 1, by rw [hk]; push_cast; ring⟩, hle⟩
  | case2 x hx =>
    rw [sub2piLoop, if_neg hx]
    exact ⟨⟨0, by ring⟩, by linarith [not_lt.mp hx]⟩

theorem add2piLoop_spec (x : ℚ) :
    (∃ k : ℤ, add2piLoop x = x + twoPiF * k) ∧ -piF ≤ add2piLoop x ∧
      (x ≤ piF → add2piLoop x ≤ piF) := by
  induction x using add2piLoop.induct with
  | case1 x hx ih =>
    rw [add2piLoop, if_pos hx]
    obtain ⟨⟨k, hk⟩, hge, hup⟩ := ih
    refine ⟨⟨k + 1, by rw [hk]; push_cast; ring⟩, hge, fun _ => hup ?_⟩
    have hpi : (0:ℚ) < piF := by norm_num [piF]
    have h2 : twoPiF = 2 * piF := rfl
    linarith
  | case2 x hx =>
    rw [add2piLoop, if_neg hx]
    exact ⟨⟨0, by ring⟩, by linarith [not_lt.mp hx], fun h => h⟩

/-- C6: for any current heading and any desired heading, the heading change
made by `move()` in one tick (before the optional random perturbation) is
at most `TURN_ANGLE` in absolute value, and it is the clamp of the shortest
angular representative of the difference: the turn equals
`constrain(d, -TURN_ANGLE, TURN_ANGLE)` for some `d` congruent to
`desired - current` modulo 2π with `|d| ≤ π`. -/
theorem turn_rate_bound (desiredAngle currentAngle : ℚ) :
    |moveNewAngle desiredAngle currentAngle - currentAngle| ≤ TURN_ANGLE ∧
    ∃ d k, d = desiredAngle - currentAngle - twoPiF * (k : ℤ) ∧ |d| ≤ piF ∧
      moveNewAngle desiredAngle currentAngle =
        currentAngle + constrainQ d (-TURN_ANGLE) TURN_ANGLE := by
  obtain ⟨⟨k1, hk1⟩, hs⟩ := sub2piLoop_spec (desiredAngle - currentAngle)
  obtain ⟨⟨k2, hk2⟩, hg, hup⟩ := add2piLoop_spec (sub2piLoop (desiredAngle - currentAngle))
  have hT : (0:ℚ) ≤ TURN_ANGLE := by norm_num [TURN_ANGLE, piF]
  set d := add2piLoop (sub2piLoop (desiredAngle - currentAngle)) with hd
  have hclamp_le : constrainQ d (-TURN_ANGLE) TURN_ANGLE ≤ TURN_ANGLE := by
    unfold constrainQ
    exact max_le (min_le_right _ _) (by linarith)
  have hclamp_ge : -TURN_ANGLE ≤ constrainQ d (-TURN_ANGLE) TURN_ANGLE :=
    le_max_right _ _
  constructor
  · unfold moveNewAngle
    rw [← hd]
    rw [abs_le]
    constructor <;> [linarith; linarith]
  · refine ⟨d, k1 - k2, ?_, ?_, ?_⟩
    · rw [hk2, hk1]
      push_cast
      ring
    · rw [abs_le]
      exact ⟨hg, hup hs⟩
    · unfold moveNewAngle
      rw [← hd]

/-! ## C1: the sensing cone of `Ant.senseAndDecideAngle` (lines 575-594)

The outer loop runs
`for (angleOffset = -SENSE_ANGLE/2; angleOffset <= SENSE_ANGLE/2; angleOffset += SENSE_ANGLE/4)`.
In double precision `SENSE_ANGLE/2` and `SENSE_ANGLE/4` are exact halvings
of the double `SENSE_ANGLE`, and each loop addition
(-S/2 → -S/4 → 0 → S/4 → S/2) is exact because every intermediate value is
a small dyadic multiple of `S/4`; the loop therefore runs exactly the
iterations the exact rational model runs.  The inner loop runs
`for (distMultiplier = 0.5; distMultiplier <= 1.5; distMultiplier += 0.5)`
(0.5, 1.0, 1.5 — all exact in double precision, three iterations).

Each angle iteration creates `senseVec = p5.Vector.fromAngle(checkAngle)`
(a unit vector) and the inner loop executes
`checkPos = p5.Vector.add(this.pos, senseVec.mult(senseDist))` where
`p5.Vector.mult` scales `senseVec` IN PLACE, so the magnitude of the probe
vector compounds across the three inner iterations.  `senseDistLoop`
returns the successive probe magnitudes (distance of the probe point from
`this.pos` in pixels), threading the accumulated magnitude `mag` exactly
as the mutated vector does; `senseLen` is
`CELL_SIZE * SENSE_RADIUS` in pixels. -/

/-- The inner `distMultiplier` loop: successive probe distances produced by
the in-place scaling `senseVec.mult(CELL_SIZE * SENSE_RADIUS * distMultiplier)`. -/
def senseDistLoop (senseLen mag mult : ℚ) : List ℚ :=
  if mult ≤ 3/2 then
    (mag * (senseLen * mult)) ::
      senseDistLoop senseLen (mag * (senseLen * mult)) (mult + 1/2)
  else []
termination_by (⌈(3/2 - mult) * 2⌉ + 1).toNat
decreasing_by
  have hd : (3/2 - (mult + 1/2)) * 2 = (3/2 - mult) * 2 - 1 := by ring
  rw [hd]
  rw [show (3/2 - mult) * 2 - 1 = (3/2 - mult) * 2 - (1:ℤ) by norm_num]
  rw [Int.ceil_sub_int]
  have hge : (0:ℚ) ≤ (3/2 - mult) * 2 := by linarith
  have := Int.ceil_nonneg (α := ℚ) hge
  omega

/-- The outer `angleOffset` loop: the angular offsets probed. -/
def senseAngleLoop (off : ℚ) : List ℚ :=
  if off ≤ SENSE_ANGLE / 2 then off :: senseAngleLoop (off + SENSE_ANGLE / 4) else []
termination_by (⌈(SENSE_ANGLE/2 - off) / (SENSE_ANGLE/4)⌉ + 1).toNat
decreasing_by
  have hS : (0:ℚ) < SENSE_ANGLE / 4 := by norm_num [SENSE_ANGLE, piF]
  have hd : (SENSE_ANGLE/2 - (off + SENSE_ANGLE/4)) / (SENSE_ANGLE/4) =
      (SENSE_ANGLE/2 - off) / (SENSE_ANGLE/4) - 1 := by
    have hS0 : SENSE_ANGLE ≠ 0 := by norm_num [SENSE_ANGLE, piF]
    field_simp
    ring
  rw [hd]
  rw [show (SENSE_ANGLE/2 - off) / (SENSE_ANGLE/4) - 1 =
      (SENSE_ANGLE/2 - off) / (SENSE_ANGLE/4) - (1:ℤ) by norm_num]
  rw [Int.ceil_sub_int]
  have hge : (0:ℚ) ≤ (SENSE_ANGLE/2 - off) / (SENSE_ANGLE/4) := by
    apply div_nonneg (by linarith) (le_of_lt hS)
  have := Int.ceil_nonneg (α := ℚ) hge
  omega

/-- The full probe set of one sensing pass: (angular offset, probe distance
from the agent in pixels) for each iteration of the two nested loops. -/
def sensePts (senseLen : ℚ) : List (ℚ × ℚ) :=
  (senseAngleLoop (-SENSE_ANGLE / 2)).flatMap (fun off =>
    (senseDistLoop senseLen 1 (1/2)).map (fun mag => (off, mag)))

theorem senseDistLoop_step (L mag mult : ℚ) (h : mult ≤ 3/2) :
    senseDistLoop L mag mult =
      (mag * (L * mult)) :: senseDistLoop L (mag * (L * mult)) (mult + 1/2) := by
  rw [senseDistLoop, if_pos h]

theorem senseDistLoop_stop (L mag mult : ℚ) (h : ¬ mult ≤ 3/2) :
    senseDistLoop L mag mult = [] := by
  rw [senseDistLoop, if_neg h]

theorem senseAngleLoop_step (off : ℚ) (h : off ≤ SENSE_ANGLE / 2) :
    senseAngleLoop off = off :: senseAngleLoop (off + SENSE_ANGLE / 4) := by
  rw [senseAngleLoop, if_pos h]

theorem senseAngleLoop_stop (off : ℚ) (h : ¬ off ≤ SENSE_ANGLE / 2) :
    senseAngleLoop off = [] := by
  rw [senseAngleLoop, if_neg h]

/-- The inner loop makes exactly three probes, at compounded distances
`L/2`, `L²/2`, `3L³/4` from the agent (NOT at fixed fractions of `L`),
because the sense vector is rescaled in place on every iteration. -/
theorem senseDistLoop_eval (L : ℚ) :
    senseDistLoop L 1 (1/2) = [L/2, L^2/2, 3*L^3/4] := by
  rw [senseDistLoop_step L 1 (1/2) (by norm_num)]
  rw [senseDistLoop_step L _ _ (by norm_num)]
  rw [senseDistLoop_step L _ _ (by norm_num)]
  rw [senseDistLoop_stop L _ _ (by norm_num)]
  have e1 : 1 * (L * (1/2)) = L/2 := by ring
  have e2 : L/2 * (L * (1/2 + 1/2)) = L^2/2 := by ring
  have e3 : L^2/2 * (L * (1/2 + 1/2 + 1/2)) = 3*L^3/4 := by ring
  rw [e1, e2, e3]

/-- The outer loop samples exactly the five offsets
`-S/2, -S/4, 0, S/4, S/2`. -/
theorem senseAngleLoop_eval :
    senseAngleLoop (-SENSE_ANGLE / 2) =
      [-SENSE_ANGLE/2, -SENSE_ANGLE/4, 0, SENSE_ANGLE/4, SENSE_ANGLE/2] := by
  rw [senseAngleLoop_step _ (by norm_num [SENSE_ANGLE, piF])]
  rw [senseAngleLoop_step _ (by norm_num [SENSE_ANGLE, piF])]
  rw [senseAngleLoop_step _ (by norm_num [SENSE_ANGLE, piF])]
  rw [senseAngleLoop_step _ (by norm_num [SENSE_ANGLE, piF])]
  rw [senseAngleLoop_step _ (by norm_num [SENSE_ANGLE, piF])]
  rw [senseAngleLoop_stop _ (by norm_num [SENSE_ANGLE, piF])]
  norm_num [SENSE_ANGLE, piF]

/-- C1 (counterexample): with `CELL_SIZE * SENSE_RADIUS = 44` pixels
(e.g. `CELL_SIZE = 40`, `SENSE_RADIUS = 1.1`), one sensing pass probes 15
points, not 10, and the second probe of each angle lies 968 pixels from
the agent — not the claimed `1.0 × SENSE_RADIUS` cell-lengths = 44 pixels. -/
theorem sense_probe_counterexample :
    (sensePts 44).length = 15 ∧ (sensePts 44).length ≠ 10 ∧
    (senseDistLoop 44 1 (1/2)).get? 1 = some 968 ∧ ((968:ℚ)) ≠ 44 := by
  have hd := senseDistLoop_eval 44
  have ha := senseAngleLoop_eval
  have hlen : (sensePts 44).length = 15 := by
    unfold sensePts
    rw [ha, hd]
    rfl
  refine ⟨hlen, by rw [hlen]; norm_num, ?_, by norm_num⟩
  rw [hd]
  norm_num

/-- C1 (amended): for any probe length `L = CELL_SIZE * SENSE_RADIUS`, one
sensing pass samples 5 angular offsets (`-SENSE_ANGLE/2` to
`+SENSE_ANGLE/2` in steps of `SENSE_ANGLE/4`), each probed at THREE inner
iterations (`distMultiplier` 0.5, 1.0, 1.5), for 15 probe points total;
because `senseVec.mult` rescales the sense vector in place, the probe
distances from the agent's position compound to `L/2`, `L²/2`, `3L³/4`
pixels instead of fixed fractions of `L`. -/
theorem sense_probe_structure (L : ℚ) :
    senseAngleLoop (-SENSE_ANGLE / 2) =
      [-SENSE_ANGLE/2, -SENSE_ANGLE/4, 0, SENSE_ANGLE/4, SENSE_ANGLE/2] ∧
    senseDistLoop L 1 (1/2) = [L/2, L^2/2, 3*L^3/4] ∧
    (sensePts L).length = 15 := by
  refine ⟨senseAngleLoop_eval, senseDistLoop_eval L, ?_⟩
  unfold sensePts
  rw [senseAngleLoop_eval, senseDistLoop_eval L]
  rfl

/-! ## C3: the per-tick agent update (`Ant.update`, lines 466-473)

`update()` runs, in order: `updateGridPos()` (recompute `this.gridPos`
from `this.pos`, clamped into the grid), `checkEnvironment()` (the state
machine), `this.charge = max(0, this.charge - 1)`, `move()` (which changes
`this.pos` but NOT `this.gridPos`), `depositPheromone()` (which reads
`this.gridPos` — i.e. the cell computed BEFORE the move), and
`addToHistory()`.

The heading computation inside `move()` (`senseAndDecideAngle` plus the
turn clamp and the optional random perturbation) operates on
double-precision angles through trigonometric functions; it is abstracted
here by the oracle value `moveVel`, the velocity vector the agent ends up
with for the tick (`p5.Vector.fromAngle(newAngle).mult(ANT_SPEED)`).
Likewise `p5.Vector.random2D()` draws are oracle values.  Every concrete
execution corresponds to some oracle assignment, and the theorems quantify
over all assignments.  The comparisons `dist(...) <= R` of
`checkEnvironment` are modelled exactly as squared-distance comparisons
(`dist` is a true square root of an integer here, so the comparison with a
non-negative radius is equivalent). -/

inductive AntMode where
  | searching
  | returning
deriving DecidableEq

structure AntState where
  pos : ℚ × ℚ
  vel : ℚ × ℚ
  mode : AntMode
  gridPos : ℤ × ℤ
  history : List (ℤ × ℤ)
  charge : ℕ
deriving DecidableEq

structure SimCtx where
  cols : ℕ
  rows : ℕ
  cellSize : ℚ
  maze : MazeGrid
  foodPos : ℤ × ℤ
  colonyPos : ℤ × ℤ

structure PherState where
  explore : PherGrid
  returnP : PherGrid
  foodFoundCount : ℕ

structure TickOracle where
  moveVel : ℚ × ℚ
  redirectVel : ℚ × ℚ
  randomVel : ℚ × ℚ

/-- `pixelToGrid` (lines 447-450): `floor(pixel / CELL_SIZE)` per axis. -/
def pixelToGrid (cellSize px py : ℚ) : ℤ × ℤ := (⌊px / cellSize⌋, ⌊py / cellSize⌋)

/-- The grid cell `Ant.updateGridPos` (lines 475-480) computes from the
current (pre-move) continuous position, clamped into the grid. -/
def preMoveCell (ctx : SimCtx) (a : AntState) : ℤ × ℤ :=
  let cg := pixelToGrid ctx.cellSize a.pos.1 a.pos.2
  (constrain cg.1 0 ((ctx.cols : ℤ) - 1), constrain cg.2 0 ((ctx.rows : ℤ) - 1))

/-- `Ant.updateGridPos` (lines 475-480). -/
def updateGridPos (ctx : SimCtx) (a : AntState) : AntState :=
  { a with gridPos := preMoveCell ctx a }

/-- The grid cell corresponding to a state's (e.g. post-move) continuous
position — what the claim calls "the grid cell corresponding to the
agent's post-move position". -/
def cellOfPos (ctx : SimCtx) (a : AntState) : ℤ × ℤ :=
  pixelToGrid ctx.cellSize a.pos.1 a.pos.2

/-- Squared euclidean distance between grid cells. -/
def distSq (a b : ℤ × ℤ) : ℤ := (a.1 - b.1) ^ 2 + (a.2 - b.2) ^ 2

/-- `Ant.checkEnvironment` (lines 501-519); returns the new agent state and
the new `foodFoundCount`. -/
def checkEnvironment (ctx : SimCtx) (o : TickOracle) (a : AntState) (ff : ℕ) :
    AntState × ℕ :=
  match a.mode with
  | .searching =>
    if ((distSq a.gridPos ctx.foodPos : ℚ)) ≤ FOOD_DETECTION_RADIUS ^ 2 then
      ({ a with mode := .returning, vel := (-a.vel.1, -a.vel.2),
                charge := PHEROMONE_DURATION }, ff)
    else (a, ff)
  | .returning =>
    if ((distSq a.gridPos ctx.colonyPos : ℚ)) ≤ COLONY_DETECTION_RADIUS ^ 2 then
      ({ a with mode := .searching, vel := o.randomVel,
                charge := PHEROMONE_DURATION }, ff + 1)
    else (a, ff)

/-- `this.charge = max(0, this.charge - 1)` (line 469); `ℕ` subtraction
floors at 0. -/
def chargeStep (a : AntState) : AntState := { a with charge := a.charge - 1 }

/-- `Ant.move` (lines 521-555) with the heading decision supplied by the
oracle: set the velocity, try the move, reject it on a wall or
out-of-bounds cell (picking a fresh random direction instead), then clamp
the position into the canvas (`width = CELL_SIZE * GRID_COLS`). -/
def moveStep (ctx : SimCtx) (o : TickOracle) (a : AntState) : AntState :=
  let nextPos := (a.pos.1 + o.moveVel.1, a.pos.2 + o.moveVel.2)
  let nextGrid := pixelToGrid ctx.cellSize nextPos.1 nextPos.2
  let moved :=
    if isValidGridPos ctx.cols ctx.rows nextGrid.1 nextGrid.2 = true ∧
        ctx.maze nextGrid.1 nextGrid.2 ≠ 1 then
      { a with vel := o.moveVel, pos := nextPos }
    else
      { a with vel := o.redirectVel }
  { moved with pos := (constrainQ moved.pos.1 0 (ctx.cellSize * ctx.cols),
                       constrainQ moved.pos.2 0 (ctx.cellSize * ctx.rows)) }

/-- p5 `map(value, start1, stop1, start2, stop2)` (unclamped linear map). -/
def mapQ (value start1 stop1 start2 stop2 : ℚ) : ℚ :=
  start2 + (stop2 - start2) * ((value - start1) / (stop1 - start1))

/-- `Ant.depositPheromone` (lines 602-622): skip when the charge is
exhausted, otherwise write the charge-ramped, floored amount into the
channel matching the current state at `this.gridPos` (the write itself is
the guarded, clamped `depositAt`). -/
def depositPheromone (ctx : SimCtx) (a : AntState) (p : PherState) : PherState :=
  if a.charge = 0 then p
  else
    match a.mode with
    | .searching =>
      let amt := max 0 (mapQ (a.charge : ℚ) 0 ((PHEROMONE_DURATION : ℕ) : ℚ) 0
        DEPOSITION_RATE_EXPLORE)
      { p with explore := depositAt ctx.cols ctx.rows p.explore a.gridPos.1 a.gridPos.2 amt }
    | .returning =>
      let amt := max 0 (mapQ (a.charge : ℚ) 0 ((PHEROMONE_DURATION : ℕ) : ℚ) 0
        DEPOSITION_RATE_RETURN)
      { p with returnP := depositAt ctx.cols ctx.rows p.returnP a.gridPos.1 a.gridPos.2 amt }

/-- `Ant.addToHistory` (lines 482-490). -/
def addToHistory (a : AntState) : AntState :=
  if a.history.getLast? ≠ some a.gridPos then
    let h := a.history ++ [a.gridPos]
    { a with history := if ANT_HISTORY_LENGTH < h.length then h.drop 1 else h }
  else a

/-- `Ant.update` (lines 466-473), in source order. -/
def antUpdate (ctx : SimCtx) (o : TickOracle) (a : AntState) (p : PherState) :
    AntState × PherState :=
  let a1 := updateGridPos ctx a
  let ce := checkEnvironment ctx o a1 p.foodFoundCount
  let a3 := chargeStep ce.1
  let a4 := moveStep ctx o a3
  let p1 := depositPheromone ctx a4 { p with foodFoundCount := ce.2 }
  (addToHistory a4, p1)

theorem checkEnvironment_gridPos (ctx : SimCtx) (o : TickOracle) (a : AntState) (ff : ℕ) :
    ((checkEnvironment ctx o a ff).1).gridPos = a.gridPos := by
  unfold checkEnvironment
  cases a.mode <;> (simp only []; split <;> rfl)

theorem moveStep_frame (ctx : SimCtx) (o : TickOracle) (a : AntState) :
    (moveStep ctx o a).mode = a.mode ∧ (moveStep ctx o a).charge = a.charge ∧
      (moveStep ctx o a).gridPos = a.gridPos ∧ (moveStep ctx o a).history = a.history := by
  unfold moveStep
  simp only []
  split <;> exact ⟨rfl, rfl, rfl, rfl⟩

theorem addToHistory_gridPos (a : AntState) : (addToHistory a).gridPos = a.gridPos := by
  unfold addToHistory
  split <;> rfl

/-- C3 (amended): in each per-tick agent update the deposit is written into
the grid cell computed at the START of the update from the pre-move
position (`updateGridPos` sets `this.gridPos` before `move()` changes
`this.pos`, and nothing updates `gridPos` after the move), not the
post-move cell; the deposit happens exactly when the post-decrement charge
is positive, into the explore channel when Searching and the return
channel when Returning (state as of this tick's transition check), with
amount `max(0, map(charge, 0, PHEROMONE_DURATION, 0, rate))` — linearly
proportional to the remaining charge, the configured rate at full charge,
0 at charge 0 — clamped by `depositAt` to `PHEROMONE_MAX`. -/
theorem deposit_uses_premove_cell (ctx : SimCtx) (o : TickOracle) (a : AntState)
    (p : PherState) :
    (antUpdate ctx o a p).1.gridPos = preMoveCell ctx a ∧
    (∀ c : ℕ,
      max 0 (mapQ (c : ℚ) 0 ((PHEROMONE_DURATION : ℕ) : ℚ) 0 DEPOSITION_RATE_EXPLORE) =
        DEPOSITION_RATE_EXPLORE * (c : ℚ) / ((PHEROMONE_DURATION : ℕ) : ℚ)) ∧
    ((checkEnvironment ctx o (updateGridPos ctx a) p.foodFoundCount).1.charge - 1 = 0 →
      (antUpdate ctx o a p).2.explore = p.explore ∧
      (antUpdate ctx o a p).2.returnP = p.returnP) ∧
    ((checkEnvironment ctx o (updateGridPos ctx a) p.foodFoundCount).1.charge - 1 ≠ 0 →
      (checkEnvironment ctx o (updateGridPos ctx a) p.foodFoundCount).1.mode =
        AntMode.searching →
      (antUpdate ctx o a p).2.explore =
        depositAt ctx.cols ctx.rows p.explore (preMoveCell ctx a).1 (preMoveCell ctx a).2
          (max 0 (mapQ
            (((checkEnvironment ctx o (updateGridPos ctx a) p.foodFoundCount).1.charge
              - 1 : ℕ) : ℚ)
            0 ((PHEROMONE_DURATION : ℕ) : ℚ) 0 DEPOSITION_RATE_EXPLORE)) ∧
      (antUpdate ctx o a p).2.returnP = p.returnP) ∧
    ((checkEnvironment ctx o (updateGridPos ctx a) p.foodFoundCount).1.charge - 1 ≠ 0 →
      (checkEnvironment ctx o (updateGridPos ctx a) p.foodFoundCount).1.mode =
        AntMode.returning →
      (antUpdate ctx o a p).2.returnP =
        depositAt ctx.cols ctx.rows p.returnP (preMoveCell ctx a).1 (preMoveCell ctx a).2
          (max 0 (mapQ
            (((checkEnvironment ctx o (updateGridPos ctx a) p.foodFoundCount).1.charge
              - 1 : ℕ) : ℚ)
            0 ((PHEROMONE_DURATION : ℕ) : ℚ) 0 DEPOSITION_RATE_RETURN)) ∧
      (antUpdate ctx o a p).2.explore = p.explore) := by
  set a1 := updateGridPos ctx a with ha1
  set ce := checkEnvironment ctx o a1 p.foodFoundCount with hce
  set a3 := chargeStep ce.1 with ha3
  set a4 := moveStep ctx o a3 with ha4
  have hAU : antUpdate ctx o a p =
      (addToHistory a4, depositPheromone ctx a4 { p with foodFoundCount := ce.2 }) := rfl
  have hfr := moveStep_frame ctx o a3
  have hg4 : a4.gridPos = preMoveCell ctx a := by
    rw [hfr.2.2.1]
    have h3 : a3.gridPos = ce.1.gridPos := rfl
    rw [h3, hce, checkEnvironment_gridPos]
    rfl
  have hm4 : a4.mode = ce.1.mode := by
    rw [hfr.1]; rfl
  have hc4 : a4.charge = ce.1.charge - 1 := by
    rw [hfr.2.1]; rfl
  refine ⟨?_, ?_, ?_, ?_, ?_⟩
  · rw [hAU]
    show (addToHistory a4).gridPos = _
    rw [addToHistory_gridPos, hg4]
  · intro c
    have hm : mapQ (c : ℚ) 0 ((PHEROMONE_DURATION : ℕ) : ℚ) 0 DEPOSITION_RATE_EXPLORE =
        DEPOSITION_RATE_EXPLORE * (c : ℚ) / ((PHEROMONE_DURATION : ℕ) : ℚ) := by
      unfold mapQ
      ring
    rw [hm, max_eq_right]
    apply div_nonneg
    · exact mul_nonneg (by norm_num [DEPOSITION_RATE_EXPLORE]) (Nat.cast_nonneg c)
    · norm_num [PHEROMONE_DURATION]
  · intro h0
    have hz : a4.charge = 0 := by rw [hc4]; exact h0
    rw [hAU]
    show (depositPheromone ctx a4 { p with foodFoundCount := ce.2 }).explore = p.explore ∧
      (depositPheromone ctx a4 { p with foodFoundCount := ce.2 }).returnP = p.returnP
    unfold depositPheromone
    rw [if_pos hz]
    exact ⟨rfl, rfl⟩
  · intro hcne hmode
    have hz : ¬ a4.charge = 0 := by rw [hc4]; exact hcne
    have hmm : a4.mode = AntMode.searching := by rw [hm4]; exact hmode
    rw [hAU]
    show (depositPheromone ctx a4 { p with foodFoundCount := ce.2 }).explore = _ ∧
      (depositPheromone ctx a4 { p with foodFoundCount := ce.2 }).returnP = p.returnP
    unfold depositPheromone
    rw [if_neg hz, hmm]
    simp only []
    rw [hg4, hc4]
    exact ⟨rfl, trivial⟩
  · intro hcne hmode
    have hz : ¬ a4.charge = 0 := by rw [hc4]; exact hcne
    have hmm : a4.mode = AntMode.returning := by rw [hm4]; exact hmode
    rw [hAU]
    show (depositPheromone ctx a4 { p with foodFoundCount := ce.2 }).returnP = _ ∧
      (depositPheromone ctx a4 { p with foodFoundCount := ce.2 }).explore = p.explore
    unfold depositPheromone
    rw [if_neg hz, hmm]
    simp only []
    rw [hg4, hc4]
    exact ⟨rfl, trivial⟩

/-- A concrete 5×5 open maze context (`CELL_SIZE = 10`) for exercising the
per-tick update. -/
def ctxC3 : SimCtx :=
  { cols := 5, rows := 5, cellSize := 10, maze := fun _ _ => 0,
    foodPos := (4, 4), colonyPos := (0, 0) }

/-- A tick oracle moving one cell to the right. -/
def oC3 : TickOracle := { moveVel := (10, 0), redirectVel := (10, 0), randomVel := (10, 0) }

/-- A searching agent in the middle of cell (1,1) with 10 charge left. -/
def aC3 : AntState :=
  { pos := (15, 15), vel := (10, 0), mode := .searching, gridPos := (0, 0),
    history := [], charge := 10 }

/-- A returning agent at the same position. -/
def aC3r : AntState :=
  { pos := (15, 15), vel := (10, 0), mode := .returning, gridPos := (0, 0),
    history := [], charge := 10 }

/-- Empty pheromone state. -/
def pC3 : PherState := { explore := createGridQ 0, returnP := createGridQ 0, foodFoundCount := 0 }

/-- C3 (counterexample): a searching agent whose move crosses from cell
(1,1) into cell (2,1) deposits into (1,1) — the PRE-move cell recorded in
`gridPos` — while the claimed target, the post-move cell (2,1), receives
nothing. -/
theorem deposit_premove_counterexample :
    cellOfPos ctxC3 (antUpdate ctxC3 oC3 aC3 pC3).1 = (2, 1) ∧
    ((2, 1) : ℤ × ℤ) ≠ (1, 1) ∧
    (antUpdate ctxC3 oC3 aC3 pC3).2.explore 2 1 = 0 ∧
    (antUpdate ctxC3 oC3 aC3 pC3).2.explore 1 1 = 27/1000 ∧
    ((27/1000 : ℚ)) ≠ 0 := by
  norm_num [antUpdate, updateGridPos, preMoveCell, cellOfPos, pixelToGrid,
    checkEnvironment, distSq, chargeStep, moveStep, depositPheromone, addToHistory,
    depositAt, isValidGridPos, constrain, constrainQ, mapQ, createGridQ,
    ctxC3, oC3, aC3, pC3, FOOD_DETECTION_RADIUS, PHEROMONE_DURATION,
    DEPOSITION_RATE_EXPLORE, PHEROMONE_MAX, ANT_HISTORY_LENGTH]
  simp
  norm_num

/-- C3 witness: the amended theorem applied to a concrete returning agent. -/
theorem deposit_uses_premove_cell_witness :
    ((checkEnvironment ctxC3 oC3 (updateGridPos ctxC3 aC3r) pC3.foodFoundCount).1.charge
        - 1 ≠ 0) ∧
    ((checkEnvironment ctxC3 oC3 (updateGridPos ctxC3 aC3r) pC3.foodFoundCount).1.mode =
        AntMode.returning) ∧
    (antUpdate ctxC3 oC3 aC3r pC3).2.returnP =
      depositAt ctxC3.cols ctxC3.rows pC3.returnP
        (preMoveCell ctxC3 aC3r).1 (preMoveCell ctxC3 aC3r).2
        (max 0 (mapQ
          (((checkEnvironment ctxC3 oC3 (updateGridPos ctxC3 aC3r)
              pC3.foodFoundCount).1.charge - 1 : ℕ) : ℚ)
          0 ((PHEROMONE_DURATION : ℕ) : ℚ) 0 DEPOSITION_RATE_RETURN)) :=
  ⟨by norm_num [checkEnvironment, updateGridPos, preMoveCell, pixelToGrid, constrain,
      distSq, ctxC3, oC3, aC3r, pC3, COLONY_DETECTION_RADIUS, PHEROMONE_DURATION],
    by norm_num [checkEnvironment, updateGridPos, preMoveCell, pixelToGrid, constrain,
      distSq, ctxC3, oC3, aC3r, pC3, COLONY_DETECTION_RADIUS, PHEROMONE_DURATION],
    ((deposit_uses_premove_cell ctxC3 oC3 aC3r pC3).2.2.2.2
      (by norm_num [checkEnvironment, updateGridPos, preMoveCell, pixelToGrid, constrain,
        distSq, ctxC3, oC3, aC3r, pC3, COLONY_DETECTION_RADIUS, PHEROMONE_DURATION])
      (by norm_num [checkEnvironment, updateGridPos, preMoveCell, pixelToGrid, constrain,
        distSq, ctxC3, oC3, aC3r, pC3, COLONY_DETECTION_RADIUS, PHEROMONE_DURATION])).1⟩

/-! ## C2 and C9: maze generation (`generateMaze`, lines 159-257)

The recursive-backtracker loop is embedded as a well-founded recursion
`carveLoop` on the state the JS loop mutates (the maze grid, the visited
grid, the stack), terminating on the lexicographic measure (number of
unvisited cells, stack height).  Random draws are an oracle stream
`rng : ℕ → ℕ`: the start cell consumes `rng 0` and `rng 1`
(`floor(random(k))` is modelled as `rng i % k`), and each neighbor pick
consumes the next index.  The dead-code fallback bounds check on the start
cell (lines 180-186) is kept.  `generateMaze` finishes by forcing cells
`(1,1)` and `(finalCols-2, finalRows-2)` open exactly as lines 250-253 do.
-/

abbrev VisitGrid := ℤ → ℤ → Bool

def gset (g : MazeGrid) (c : Cell) (v : ℕ) : MazeGrid :=
  fun x y => if x = c.1 ∧ y = c.2 then v else g x y

def vset (g : VisitGrid) (c : Cell) (v : Bool) : VisitGrid :=
  fun x y => if x = c.1 ∧ y = c.2 then v else g x y

def cellList (fc fr : ℕ) : List Cell :=
  (List.range fc).flatMap (fun x : ℕ => (List.range fr).map (fun y : ℕ => ((x : ℤ), (y : ℤ))))

def countUnvisited (fc fr : ℕ) (v : VisitGrid) : ℕ :=
  (cellList fc fr).countP (fun c => !v c.1 c.2)

def interiorCell (fc fr : ℕ) (c : Cell) : Bool :=
  0 < c.1 && c.1 < (fc : ℤ) - 1 && 0 < c.2 && c.2 < (fr : ℤ) - 1

def potentialNeighbors (c : Cell) : List Cell :=
  [(c.1, c.2 - 2), (c.1 + 2, c.2), (c.1, c.2 + 2), (c.1 - 2, c.2)]

def neighborsOf (fc fr : ℕ) (v : VisitGrid) (c : Cell) : List Cell :=
  (potentialNeighbors c).filter (fun n => interiorCell fc fr n && !v n.1 n.2)

def wallBetween (cur chosen : Cell) : Cell :=
  (cur.1 + (chosen.1 - cur.1) / 2, cur.2 + (chosen.2 - cur.2) / 2)

theorem mem_cellList (fc fr : ℕ) (c : Cell)
    (hx0 : 0 ≤ c.1) (hx1 : c.1 < (fc : ℤ)) (hy0 : 0 ≤ c.2) (hy1 : c.2 < (fr : ℤ)) :
    c ∈ cellList fc fr := by
  unfold cellList
  rw [List.mem_flatMap]
  refine ⟨c.1.toNat, ?_, ?_⟩
  · rw [List.mem_range]; omega
  · rw [List.mem_map]
    refine ⟨c.2.toNat, ?_, ?_⟩
    · rw [List.mem_range]; omega
    · exact Prod.ext (by omega) (by omega)

theorem countP_lt_of_flip {α : Type} (l : List α) (p q : α → Bool)
    (himp : ∀ a ∈ l, q a = true → p a = true)
    (a0 : α) (ha : a0 ∈ l) (hp : p a0 = true) (hq : q a0 = false) :
    l.countP q < l.countP p := by
  induction l with
  | nil => cases ha
  | cons x xs ih =>
    rw [List.countP_cons, List.countP_cons]
    have himp' : ∀ a ∈ xs, q a = true → p a = true :=
      fun a ha' => himp a (List.mem_cons_of_mem x ha')
    have hle : xs.countP q ≤ xs.countP p := by
      apply List.countP_mono_left
      intro a ha'
      exact himp' a ha'
    rcases List.mem_cons.mp ha with rfl | hmem
    · rw [hp, hq]
      simp
      omega
    · have := ih himp' hmem
      cases hqx : q x
      · simp
        omega
      · rw [himp x (List.mem_cons_self x xs) hqx]
        simp
        omega

theorem interiorCell_bounds {fc fr : ℕ} {c : Cell} (h : interiorCell fc fr c = true) :
    0 < c.1 ∧ c.1 < (fc : ℤ) - 1 ∧ 0 < c.2 ∧ c.2 < (fr : ℤ) - 1 := by
  unfold interiorCell at h
  simp only [Bool.and_eq_true, decide_eq_true_eq] at h
  tauto

theorem mem_neighborsOf {fc fr : ℕ} {v : VisitGrid} {c n : Cell}
    (h : n ∈ neighborsOf fc fr v c) :
    n ∈ potentialNeighbors c ∧ interiorCell fc fr n = true ∧ v n.1 n.2 = false := by
  unfold neighborsOf at h
  rw [List.mem_filter] at h
  rcases h with ⟨h1, h2⟩
  rw [Bool.and_eq_true] at h2
  exact ⟨h1, h2.1, by simpa using h2.2⟩

theorem countUnvisited_lt (fc fr : ℕ) (v : VisitGrid) (c : Cell)
    (hx0 : 0 ≤ c.1) (hx1 : c.1 < (fc : ℤ)) (hy0 : 0 ≤ c.2) (hy1 : c.2 < (fr : ℤ))
    (hv : v c.1 c.2 = false) :
    countUnvisited fc fr (vset v c true) < countUnvisited fc fr v := by
  apply countP_lt_of_flip _ _ _ ?_ c (mem_cellList fc fr c hx0 hx1 hy0 hy1) ?_ ?_
  · intro a _ hq
    by_cases hac : a.1 = c.1 ∧ a.2 = c.2
    · exfalso
      unfold vset at hq
      rw [if_pos hac] at hq
      simp at hq
    · unfold vset at hq
      rw [if_neg hac] at hq
      exact hq
  · simp [hv]
  · unfold vset
    simp

theorem List_getD_mem {α : Type} (l : List α) (n : ℕ) (d : α) (hn : n < l.length) :
    l.getD n d ∈ l := by
  rw [List.getD_eq_getElem?_getD, List.getElem?_eq_getElem hn]
  simp

def carveLoop (fc fr : ℕ) (rng : ℕ → ℕ) (i : ℕ) (maze : MazeGrid) (visited : VisitGrid)
    (stack : List Cell) : MazeGrid × VisitGrid :=
  match stack with
  | [] => (maze, visited)
  | current :: rest =>
    let ns := neighborsOf fc fr visited current
    if h : ns ≠ [] then
      let chosen := ns.getD (rng i % ns.length) current
      let wall := wallBetween current chosen
      carveLoop fc fr rng (i + 1) (gset (gset maze wall 0) chosen 0)
        (vset visited chosen true) (chosen :: current :: rest)
    else
      carveLoop fc fr rng i maze visited rest
termination_by (countUnvisited fc fr visited, stack.length)
decreasing_by
  · apply Prod.Lex.left
    have hlen : rng i % ns.length < ns.length := by
      apply Nat.mod_lt
      cases hcase : ns with
      | nil => exact absurd hcase h
      | cons a l => simp [hcase]
    have hmem : ns.getD (rng i % ns.length) c ∈ ns := List_getD_mem ns _ c hlen
    obtain ⟨hpn, hint, hunv⟩ := mem_neighborsOf hmem
    obtain ⟨b1, b2, b3, b4⟩ := interiorCell_bounds hint
    show countUnvisited fc fr
        (vset visited (ns.getD (rng i % ns.length) c) true) < countUnvisited fc fr visited
    exact countUnvisited_lt fc fr visited _ (by omega) (by omega) (by omega) (by omega) hunv
  · apply Prod.Lex.right
    simp

def oddCell (fc fr : ℕ) (c : Cell) : Prop :=
  c.1 % 2 = 1 ∧ c.2 % 2 = 1 ∧ 0 < c.1 ∧ c.1 < (fc : ℤ) - 1 ∧ 0 < c.2 ∧ c.2 < (fr : ℤ) - 1

def adjacentCell (a b : Cell) : Prop :=
  (a.1 - b.1).natAbs + (a.2 - b.2).natAbs = 1

def openReach (m : MazeGrid) (s c : Cell) : Prop :=
  Relation.ReflTransGen (fun a b => adjacentCell a b ∧ m b.1 b.2 = 0) s c

theorem gset_apply (g : MazeGrid) (c : Cell) (v : ℕ) (x y : ℤ) :
    gset g c v x y = if x = c.1 ∧ y = c.2 then v else g x y := rfl

theorem vset_apply (g : VisitGrid) (c : Cell) (v : Bool) (x y : ℤ) :
    vset g c v x y = if x = c.1 ∧ y = c.2 then v else g x y := rfl

theorem gset_open_mono (g : MazeGrid) (c : Cell) (x y : ℤ) (h : g x y = 0) :
    gset g c 0 x y = 0 := by
  rw [gset_apply]
  split <;> [rfl; exact h]

theorem openReach_mono {m m' : MazeGrid} (hmono : ∀ x y, m x y = 0 → m' x y = 0)
    {s c : Cell} (h : openReach m s c) : openReach m' s c := by
  induction h with
  | refl => exact Relation.ReflTransGen.refl
  | tail _ hstep ih =>
    exact Relation.ReflTransGen.tail ih ⟨hstep.1, hmono _ _ hstep.2⟩

theorem oddCell_interior {fc fr : ℕ} {c : Cell} (h : oddCell fc fr c) :
    interiorCell fc fr c = true := by
  obtain ⟨h1, h2, h3, h4, h5, h6⟩ := h
  unfold interiorCell
  simp only [Bool.and_eq_true, decide_eq_true_eq]
  exact ⟨⟨⟨h3, h4⟩, h5⟩, h6⟩

theorem wall_props {fc fr : ℕ} {current chosen : Cell}
    (hcur : oddCell fc fr current)
    (hmem : chosen ∈ potentialNeighbors current)
    (hint : interiorCell fc fr chosen = true) :
    adjacentCell current (wallBetween current chosen) ∧
    adjacentCell (wallBetween current chosen) chosen ∧
    (0 < (wallBetween current chosen).1 ∧ (wallBetween current chosen).1 < (fc : ℤ) - 1 ∧
      0 < (wallBetween current chosen).2 ∧ (wallBetween current chosen).2 < (fr : ℤ) - 1) ∧
    oddCell fc fr chosen := by
  obtain ⟨p1, p2, p3, p4, p5, p6⟩ := hcur
  obtain ⟨b1, b2, b3, b4⟩ := interiorCell_bounds hint
  unfold potentialNeighbors at hmem
  simp only [List.mem_cons, List.mem_singleton, List.not_mem_nil, or_false] at hmem
  rcases hmem with h | h | h | h <;>
    (subst h
     unfold wallBetween adjacentCell oddCell
     simp only []
     norm_num
     constructor
     · omega
     constructor
     · omega
     refine ⟨?_, ?_⟩ <;> omega)

structure CarveInv (fc fr : ℕ) (start : Cell) (maze : MazeGrid) (visited : VisitGrid)
    (stack : List Cell) : Prop where
  stack_visited : ∀ c ∈ stack, visited c.1 c.2 = true
  visited_open : ∀ c : Cell, visited c.1 c.2 = true → maze c.1 c.2 = 0
  visited_odd : ∀ c : Cell, visited c.1 c.2 = true → oddCell fc fr c
  wall_outside : ∀ c : Cell,
    ¬ (0 < c.1 ∧ c.1 < (fc : ℤ) - 1 ∧ 0 < c.2 ∧ c.2 < (fr : ℤ) - 1) → maze c.1 c.2 = 1
  open_reach : ∀ c : Cell, maze c.1 c.2 = 0 → openReach maze start c
  closed_off_stack : ∀ c : Cell, visited c.1 c.2 = true → c ∉ stack →
    ∀ n ∈ potentialNeighbors c, interiorCell fc fr n = true → visited n.1 n.2 = true

theorem carveInv_push {fc fr : ℕ} {start : Cell} {maze : MazeGrid} {visited : VisitGrid}
    {current : Cell} {rest : List Cell}
    (hinv : CarveInv fc fr start maze visited (current :: rest))
    {chosen : Cell} (hmem : chosen ∈ neighborsOf fc fr visited current) :
    CarveInv fc fr start (gset (gset maze (wallBetween current chosen) 0) chosen 0)
      (vset visited chosen true) (chosen :: current :: rest) := by
  obtain ⟨hpn, hint, hunv⟩ := mem_neighborsOf hmem
  have hcurv : visited current.1 current.2 = true :=
    hinv.stack_visited current (List.mem_cons_self _ _)
  have hcuro : oddCell fc fr current := hinv.visited_odd current hcurv
  obtain ⟨hadj1, hadj2, hwb, hcho⟩ := wall_props hcuro hpn hint
  set w := wallBetween current chosen with hw
  -- membership in the new visited grid
  have hvset : ∀ c : Cell, vset visited chosen true c.1 c.2 = true ↔
      (c.1 = chosen.1 ∧ c.2 = chosen.2) ∨ visited c.1 c.2 = true := by
    intro c
    rw [vset_apply]
    split
    · rename_i hc
      simp [hc]
    · rename_i hc
      simp [hc]
  -- values in the new maze
  have hmset : ∀ c : Cell, gset (gset maze w 0) chosen 0 c.1 c.2 = 0 ↔
      (c.1 = chosen.1 ∧ c.2 = chosen.2) ∨ (c.1 = w.1 ∧ c.2 = w.2) ∨ maze c.1 c.2 = 0 := by
    intro c
    rw [gset_apply, gset_apply]
    split
    · rename_i hc
      simp [hc]
    · rename_i hc
      split
      · rename_i hc2
        simp [hc, hc2]
      · rename_i hc2
        simp [hc, hc2]
  have hmono : ∀ x y, maze x y = 0 → gset (gset maze w 0) chosen 0 x y = 0 := by
    intro x y h
    exact gset_open_mono _ _ _ _ (gset_open_mono _ _ _ _ h)
  -- reach of current in the new maze
  have hcur_reach : openReach (gset (gset maze w 0) chosen 0) start current :=
    openReach_mono hmono (hinv.open_reach current (hinv.visited_open current hcurv))
  have hw_open : gset (gset maze w 0) chosen 0 w.1 w.2 = 0 := by
    rw [(hmset w)]
    right; left; exact ⟨rfl, rfl⟩
  have hch_open : gset (gset maze w 0) chosen 0 chosen.1 chosen.2 = 0 := by
    rw [(hmset chosen)]
    left; exact ⟨rfl, rfl⟩
  have hw_reach : openReach (gset (gset maze w 0) chosen 0) start w :=
    Relation.ReflTransGen.tail hcur_reach ⟨hadj1, hw_open⟩
  have hch_reach : openReach (gset (gset maze w 0) chosen 0) start chosen :=
    Relation.ReflTransGen.tail hw_reach ⟨hadj2, hch_open⟩
  refine ⟨?_, ?_, ?_, ?_, ?_, ?_⟩
  · intro c hc
    rcases List.mem_cons.mp hc with rfl | hc2
    · rw [hvset c]
      left; exact ⟨rfl, rfl⟩
    · rw [hvset c]
      right; exact hinv.stack_visited c hc2
  · intro c hc
    rw [hvset c] at hc
    rcases hc with hc | hc
    · rw [hmset c]
      left; exact hc
    · exact hmono _ _ (hinv.visited_open c hc)
  · intro c hc
    rw [hvset c] at hc
    rcases hc with hc | hc
    · have : c = chosen := Prod.ext hc.1 hc.2
      rw [this]; exact hcho
    · exact hinv.visited_odd c hc
  · intro c hc
    have h1 : ¬ (c.1 = chosen.1 ∧ c.2 = chosen.2) := by
      intro hcc
      obtain ⟨_, _, o3, o4, o5, o6⟩ := hcho
      exact hc ⟨by omega, by omega, by omega, by omega⟩
    have h2 : ¬ (c.1 = w.1 ∧ c.2 = w.2) := by
      intro hcc
      exact hc ⟨by omega, by omega, by omega, by omega⟩
    rw [gset_apply, gset_apply, if_neg h1, if_neg h2]
    exact hinv.wall_outside c hc
  · intro c hc
    rw [hmset c] at hc
    rcases hc with hc | hc | hc
    · have : c = chosen := Prod.ext hc.1 hc.2
      rw [this]; exact hch_reach
    · have : c = w := Prod.ext hc.1 hc.2
      rw [this]; exact hw_reach
    · exact openReach_mono hmono (hinv.open_reach c hc)
  · intro c hc hnot n hn hni
    rw [hvset c] at hc
    have hcnotchosen : ¬ (c = chosen) := fun hcc => hnot (hcc ▸ List.mem_cons_self _ _)
    rcases hc with hc | hc
    · exact absurd (Prod.ext hc.1 hc.2) hcnotchosen
    · have hnotold : c ∉ current :: rest := by
        intro hcc
        exact hnot (List.mem_cons_of_mem chosen hcc)
      rw [hvset n]
      right
      exact hinv.closed_off_stack c hc hnotold n hn hni

theorem carveInv_pop {fc fr : ℕ} {start : Cell} {maze : MazeGrid} {visited : VisitGrid}
    {current : Cell} {rest : List Cell}
    (hinv : CarveInv fc fr start maze visited (current :: rest))
    (hns : neighborsOf fc fr visited current = []) :
    CarveInv fc fr start maze visited rest := by
  refine ⟨?_, hinv.visited_open, hinv.visited_odd, hinv.wall_outside, hinv.open_reach, ?_⟩
  · intro c hc
    exact hinv.stack_visited c (List.mem_cons_of_mem current hc)
  · intro c hc hnot n hn hni
    by_cases hcc : c = current
    · -- use emptiness of the filtered neighbor list
      subst hcc
      have : ∀ a ∈ potentialNeighbors c, ¬ (interiorCell fc fr a && !visited a.1 a.2) = true := by
        rw [← List.filter_eq_nil_iff]
        exact hns
      have h2 := this n hn
      rw [Bool.and_eq_true] at h2
      by_cases hv : visited n.1 n.2 = true
      · exact hv
      · exfalso
        apply h2
        constructor
        · exact hni
        · simp [hv]
    · have : c ∉ current :: rest := by
        intro hmem
        rcases List.mem_cons.mp hmem with h | h
        · exact hcc h
        · exact hnot h
      exact hinv.closed_off_stack c hc this n hn hni

theorem carveLoop_post (fc fr : ℕ) (rng : ℕ → ℕ) (i : ℕ) (maze : MazeGrid)
    (visited : VisitGrid) (stack : List Cell) (start : Cell)
    (hinv : CarveInv fc fr start maze visited stack) :
    (∀ c : Cell, visited c.1 c.2 = true →
      (carveLoop fc fr rng i maze visited stack).2 c.1 c.2 = true) ∧
    CarveInv fc fr start (carveLoop fc fr rng i maze visited stack).1
      (carveLoop fc fr rng i maze visited stack).2 [] := by
  induction i, maze, visited, stack using carveLoop.induct fc fr rng with
  | case1 i maze visited =>
    constructor
    · intro c hc
      rw [carveLoop]
      exact hc
    · rw [carveLoop]
      exact hinv
  | case2 i maze visited current rest ns h chosen wall ih =>
    have hlen : rng i % ns.length < ns.length := by
      apply Nat.mod_lt
      cases hcase : ns with
      | nil => exact absurd hcase h
      | cons a l => simp [hcase]
    have hchosen_mem : chosen ∈ ns := List_getD_mem ns _ current hlen
    have hinv2 := carveInv_push hinv hchosen_mem
    have hrec := ih hinv2
    have heq : carveLoop fc fr rng i maze visited (current :: rest) =
        carveLoop fc fr rng (i + 1) (gset (gset maze wall 0) chosen 0)
          (vset visited chosen true) (chosen :: current :: rest) := by
      rw [carveLoop]
      simp only [dif_pos h]
    rw [heq]
    constructor
    · intro c hc
      apply hrec.1
      rw [vset_apply]
      split
      · rfl
      · exact hc
    · exact hrec.2
  | case3 i maze visited current rest ns h ih =>
    have hns : neighborsOf fc fr visited current = [] := by
      by_contra hcon
      exact h hcon
    have hinv2 := carveInv_pop hinv hns
    have hrec := ih hinv2
    have heq : carveLoop fc fr rng i maze visited (current :: rest) =
        carveLoop fc fr rng i maze visited rest := by
      rw [carveLoop]
      simp only [dif_neg h]
    rw [heq]
    exact hrec

theorem all_oddCells_visited {fc fr : ℕ} {start : Cell} {v : VisitGrid}
    (hstart : v start.1 start.2 = true) (hso : oddCell fc fr start)
    (hclosed : ∀ c : Cell, v c.1 c.2 = true → ∀ n ∈ potentialNeighbors c,
      interiorCell fc fr n = true → v n.1 n.2 = true) :
    ∀ d : ℕ, ∀ c : Cell,
      (c.1 - start.1).natAbs + (c.2 - start.2).natAbs = d → oddCell fc fr c →
      v c.1 c.2 = true := by
  intro d
  induction d using Nat.strong_induction_on with
  | _ d ih =>
    intro c hd hc
    obtain ⟨s1, s2, s3, s4, s5, s6⟩ := hso
    obtain ⟨c1, c2, c3, c4, c5, c6⟩ := hc
    by_cases hx : c.1 = start.1
    · by_cases hy : c.2 = start.2
      · have : c = start := Prod.ext hx hy
        rw [this]; exact hstart
      · rcases lt_or_gt_of_ne hy with hlt | hgt
        · -- c.2 < start.2 : step up through (c.1, c.2 + 2)
          have hmid : oddCell fc fr (c.1, c.2 + 2) := by
            refine ⟨c1, by omega, c3, c4, by omega, by omega⟩
          have hdist : ((c.1, c.2 + 2).1 - start.1).natAbs +
              ((c.1, c.2 + 2).2 - start.2).natAbs < d := by
            simp only []
            omega
          have hvmid := ih _ hdist (c.1, c.2 + 2) rfl hmid
          apply hclosed (c.1, c.2 + 2) hvmid c
          · show c ∈ potentialNeighbors (c.1, c.2 + 2)
            unfold potentialNeighbors
            simp only [List.mem_cons]
            left
            exact (Prod.ext (by omega) (by omega)).symm
          · exact oddCell_interior ⟨c1, c2, c3, c4, c5, c6⟩
        · have hmid : oddCell fc fr (c.1, c.2 - 2) := by
            refine ⟨c1, by omega, c3, c4, by omega, by omega⟩
          have hdist : ((c.1, c.2 - 2).1 - start.1).natAbs +
              ((c.1, c.2 - 2).2 - start.2).natAbs < d := by
            simp only []
            omega
          have hvmid := ih _ hdist (c.1, c.2 - 2) rfl hmid
          apply hclosed (c.1, c.2 - 2) hvmid c
          · show c ∈ potentialNeighbors (c.1, c.2 - 2)
            unfold potentialNeighbors
            simp only [List.mem_cons]
            right; right; left
            exact (Prod.ext (by omega) (by omega)).symm
          · exact oddCell_interior ⟨c1, c2, c3, c4, c5, c6⟩
    · rcases lt_or_gt_of_ne hx with hlt | hgt
      · have hmid : oddCell fc fr (c.1 + 2, c.2) := by
          refine ⟨by omega, c2, by omega, by omega, c5, c6⟩
        have hdist : ((c.1 + 2, c.2).1 - start.1).natAbs +
            ((c.1 + 2, c.2).2 - start.2).natAbs < d := by
          simp only []
          omega
        have hvmid := ih _ hdist (c.1 + 2, c.2) rfl hmid
        apply hclosed (c.1 + 2, c.2) hvmid c
        · show c ∈ potentialNeighbors (c.1 + 2, c.2)
          unfold potentialNeighbors
          simp only [List.mem_cons]
          right; right; right; left
          exact (Prod.ext (by omega) (by omega)).symm
        · exact oddCell_interior ⟨c1, c2, c3, c4, c5, c6⟩
      · have hmid : oddCell fc fr (c.1 - 2, c.2) := by
          refine ⟨by omega, c2, by omega, by omega, c5, c6⟩
        have hdist : ((c.1 - 2, c.2).1 - start.1).natAbs +
            ((c.1 - 2, c.2).2 - start.2).natAbs < d := by
          simp only []
          omega
        have hvmid := ih _ hdist (c.1 - 2, c.2) rfl hmid
        apply hclosed (c.1 - 2, c.2) hvmid c
        · show c ∈ potentialNeighbors (c.1 - 2, c.2)
          unfold potentialNeighbors
          simp only [List.mem_cons]
          right; left
          exact (Prod.ext (by omega) (by omega)).symm
        · exact oddCell_interior ⟨c1, c2, c3, c4, c5, c6⟩

def oddAdjust (n : ℕ) : ℕ :=
  let m := if n % 2 = 0 then n - 1 else n
  if m < 3 then 3 else m

def mazeStart (fc fr : ℕ) (rng : ℕ → ℕ) : Cell :=
  let sx : ℤ := ((rng 0 % ((fc - 1) / 2)) * 2 + 1 : ℕ)
  let sy : ℤ := ((rng 1 % ((fr - 1) / 2)) * 2 + 1 : ℕ)
  if sx < 0 ∨ (fc : ℤ) ≤ sx ∨ sy < 0 ∨ (fr : ℤ) ≤ sy then (1, 1) else (sx, sy)

def generateMaze (cols rows : ℕ) (rng : ℕ → ℕ) : MazeGrid × ℕ × ℕ :=
  let fc := oddAdjust cols
  let fr := oddAdjust rows
  let start := mazeStart fc fr rng
  let carved := carveLoop fc fr rng 2 (gset (fun _ _ => 1) start 0)
    (vset (fun _ _ => false) start true) [start]
  let m2 := gset carved.1 (1, 1) 0
  let m3 := if 2 < fc ∧ 2 < fr then gset m2 ((fc : ℤ) - 2, (fr : ℤ) - 2) 0 else m2
  (m3, fc, fr)

theorem oddAdjust_spec (n : ℕ) : oddAdjust n % 2 = 1 ∧ 3 ≤ oddAdjust n := by
  unfold oddAdjust
  simp only []
  by_cases h2 : n % 2 = 0
  · rw [if_pos h2]
    split <;> omega
  · rw [if_neg h2]
    split <;> omega

theorem mazeStart_odd (fc fr : ℕ) (rng : ℕ → ℕ)
    (hfc : fc % 2 = 1 ∧ 3 ≤ fc) (hfr : fr % 2 = 1 ∧ 3 ≤ fr) :
    oddCell fc fr (mazeStart fc fr rng) := by
  unfold mazeStart
  simp only []
  have hx := Nat.mod_lt (rng 0) (show 0 < (fc - 1) / 2 by omega)
  have hy := Nat.mod_lt (rng 1) (show 0 < (fr - 1) / 2 by omega)
  rw [if_neg (by omega)]
  unfold oddCell
  refine ⟨?_, ?_, ?_, ?_, ?_, ?_⟩ <;> simp only [] <;> omega

theorem initial_inv (fc fr : ℕ) (start : Cell) (hso : oddCell fc fr start) :
    CarveInv fc fr start (gset (fun _ _ => 1) start 0)
      (vset (fun _ _ => false) start true) [start] := by
  have hv : ∀ c : Cell, vset (fun _ _ => false) start true c.1 c.2 = true ↔
      c.1 = start.1 ∧ c.2 = start.2 := by
    intro c
    rw [vset_apply]
    split
    · rename_i hc; simp [hc]
    · rename_i hc; simp [hc]
  have hm : ∀ c : Cell, gset (fun _ _ => 1) start 0 c.1 c.2 = 0 ↔
      c.1 = start.1 ∧ c.2 = start.2 := by
    intro c
    rw [gset_apply]
    split
    · rename_i hc; simp [hc]
    · rename_i hc; simp [hc]
  refine ⟨?_, ?_, ?_, ?_, ?_, ?_⟩
  · intro c hc
    rcases List.mem_singleton.mp hc with rfl
    rw [hv]; exact ⟨rfl, rfl⟩
  · intro c hc
    rw [hv] at hc
    rw [hm]; exact hc
  · intro c hc
    rw [hv] at hc
    have : c = start := Prod.ext hc.1 hc.2
    rw [this]; exact hso
  · intro c hc
    rw [gset_apply]
    have hne : ¬(c.1 = start.1 ∧ c.2 = start.2) := by
      intro hcc
      obtain ⟨_, _, o3, o4, o5, o6⟩ := hso
      exact hc ⟨by omega, by omega, by omega, by omega⟩
    rw [if_neg hne]
  · intro c hc
    rw [hm] at hc
    have : c = start := Prod.ext hc.1 hc.2
    rw [this]
    exact Relation.ReflTransGen.refl
  · intro c hc hnot _ _ _
    exfalso
    rw [hv] at hc
    exact hnot (by rw [Prod.ext hc.1 hc.2]; exact List.mem_singleton.mpr rfl)

theorem gset_noop (m : MazeGrid) (c : Cell) (h : m c.1 c.2 = 0) (x y : ℤ) :
    gset m c 0 x y = m x y := by
  rw [gset_apply]
  split
  · rename_i hc
    rw [hc.1, hc.2, h]
  · rfl

theorem generateMaze_dims (cols rows : ℕ) (rng : ℕ → ℕ) :
    (generateMaze cols rows rng).2 = (oddAdjust cols, oddAdjust rows) := rfl

theorem generateMaze_facts (cols rows : ℕ) (rng : ℕ → ℕ) :
    (∀ c : Cell, (generateMaze cols rows rng).1 c.1 c.2 = 0 →
      openReach (generateMaze cols rows rng).1
        (mazeStart (oddAdjust cols) (oddAdjust rows) rng) c) ∧
    (∀ c : Cell, ¬ (0 < c.1 ∧ c.1 < ((oddAdjust cols : ℕ) : ℤ) - 1 ∧ 0 < c.2 ∧
        c.2 < ((oddAdjust rows : ℕ) : ℤ) - 1) → (generateMaze cols rows rng).1 c.1 c.2 = 1) ∧
    (∀ c : Cell, oddCell (oddAdjust cols) (oddAdjust rows) c →
      (generateMaze cols rows rng).1 c.1 c.2 = 0) := by
  have hfc := oddAdjust_spec cols
  have hfr := oddAdjust_spec rows
  set fc := oddAdjust cols with hfcdef
  set fr := oddAdjust rows with hfrdef
  set start := mazeStart fc fr rng with hstartdef
  have hso : oddCell fc fr start := mazeStart_odd fc fr rng hfc hfr
  have hinit := initial_inv fc fr start hso
  set carved := carveLoop fc fr rng 2 (gset (fun _ _ => 1) start 0)
    (vset (fun _ _ => false) start true) [start] with hcarved
  have hpost := carveLoop_post fc fr rng 2 (gset (fun _ _ => 1) start 0)
    (vset (fun _ _ => false) start true) [start] start hinit
  have Ifin : CarveInv fc fr start carved.1 carved.2 [] := hpost.2
  have hstartv : carved.2 start.1 start.2 = true := by
    apply hpost.1
    rw [vset_apply]
    simp
  have hallodd : ∀ c : Cell, oddCell fc fr c → carved.2 c.1 c.2 = true := by
    intro c hc
    exact all_oddCells_visited hstartv hso
      (fun c hv n hn hint => Ifin.closed_off_stack c hv (List.not_mem_nil c) n hn hint)
      _ c rfl hc
  have hallopen : ∀ c : Cell, oddCell fc fr c → carved.1 c.1 c.2 = 0 :=
    fun c hc => Ifin.visited_open c (hallodd c hc)
  have h11 : oddCell fc fr ((1 : ℤ), (1 : ℤ)) := by
    unfold oddCell
    refine ⟨?_, ?_, ?_, ?_, ?_, ?_⟩ <;> simp only [] <;> omega
  have h22 : oddCell fc fr ((fc : ℤ) - 2, (fr : ℤ) - 2) := by
    unfold oddCell
    refine ⟨?_, ?_, ?_, ?_, ?_, ?_⟩ <;> simp only [] <;> omega
  have hopen11 : carved.1 1 1 = 0 := hallopen _ h11
  have hopen22 : carved.1 ((fc : ℤ) - 2) ((fr : ℤ) - 2) = 0 := hallopen _ h22
  have hmid : gset carved.1 (1, 1) 0 ((fc : ℤ) - 2) ((fr : ℤ) - 2) = 0 := by
    rw [gset_noop _ _ hopen11]
    exact hopen22
  have hm3 : ∀ x y : ℤ, (generateMaze cols rows rng).1 x y = carved.1 x y := by
    intro x y
    show (if 2 < fc ∧ 2 < fr then gset (gset carved.1 (1, 1) 0) ((fc : ℤ) - 2, (fr : ℤ) - 2) 0
        else gset carved.1 (1, 1) 0) x y = carved.1 x y
    rw [if_pos ⟨by omega, by omega⟩]
    rw [gset_noop _ _ hmid]
    rw [gset_noop _ _ hopen11]
  refine ⟨?_, ?_, ?_⟩
  · intro c hc
    rw [hm3] at hc
    have hreach := Ifin.open_reach c hc
    exact openReach_mono (fun x y h => by rw [hm3]; exact h) hreach
  · intro c hc
    rw [hm3]
    exact Ifin.wall_outside c hc
  · intro c hc
    rw [hm3]
    exact hallopen c hc

theorem generateMaze_open_start_corner (cols rows : ℕ) (rng : ℕ → ℕ) :
    (generateMaze cols rows rng).1 1 1 = 0 := by
  have hfc := oddAdjust_spec cols
  have hfr := oddAdjust_spec rows
  refine (generateMaze_facts cols rows rng).2.2 ((1 : ℤ), (1 : ℤ)) ?_
  unfold oddCell
  refine ⟨?_, ?_, ?_, ?_, ?_, ?_⟩ <;> simp only [] <;> omega

/-- C2: for any requested dimensions and any random choices, the carved
start cell is Path and every in-bounds Path cell of the returned maze is
reachable from it through orthogonally adjacent Path cells (so a
breadth-first search from the start cell visits every Path cell — no
isolated pockets, the two cells forced open after carving included: they
are odd interior cells, which the depth-first carving always opens, so
forcing them open changes nothing). -/
theorem maze_connectivity (cols rows : ℕ) (rng : ℕ → ℕ) (x y : ℤ)
    (hx0 : 0 ≤ x) (hx1 : x < (((generateMaze cols rows rng).2.1 : ℕ) : ℤ))
    (hy0 : 0 ≤ y) (hy1 : y < (((generateMaze cols rows rng).2.2 : ℕ) : ℤ))
    (hopen : (generateMaze cols rows rng).1 x y = 0) :
    (generateMaze cols rows rng).1 (mazeStart (oddAdjust cols) (oddAdjust rows) rng).1
      (mazeStart (oddAdjust cols) (oddAdjust rows) rng).2 = 0 ∧
    openReach (generateMaze cols rows rng).1
      (mazeStart (oddAdjust cols) (oddAdjust rows) rng) (x, y) := by
  constructor
  · exact (generateMaze_facts cols rows rng).2.2 _
      (mazeStart_odd _ _ rng (oddAdjust_spec cols) (oddAdjust_spec rows))
  · exact (generateMaze_facts cols rows rng).1 (x, y) hopen

/-- C2 witness: connectivity applied to the 3×3 maze at cell (1,1). -/
theorem maze_connectivity_witness :
    ((0:ℤ) ≤ 1 ∧ (1:ℤ) < (((generateMaze 3 3 (fun _ => 0)).2.1 : ℕ) : ℤ) ∧
      (generateMaze 3 3 (fun _ => 0)).1 1 1 = 0) ∧
    openReach (generateMaze 3 3 (fun _ => 0)).1
      (mazeStart (oddAdjust 3) (oddAdjust 3) (fun _ => 0)) (1, 1) := by
  have hopen := generateMaze_open_start_corner 3 3 (fun _ => 0)
  have h := maze_connectivity 3 3 (fun _ => 0) 1 1 (by norm_num)
    (by norm_num [generateMaze_dims, oddAdjust]) (by norm_num)
    (by norm_num [generateMaze_dims, oddAdjust]) hopen
  exact ⟨⟨by norm_num, by norm_num [generateMaze_dims, oddAdjust], hopen⟩, h.2⟩

/-- C9: every cell on the outer border of a maze returned by
`generateMaze` is Wall: the grid starts all-Wall, the carving writes only
to strictly interior cells, and the two cells forced open afterwards are
interior given the minimum dimension of 3. -/
theorem maze_border_walls (cols rows : ℕ) (rng : ℕ → ℕ) (x y : ℤ)
    (hb : x = 0 ∨ x = (((generateMaze cols rows rng).2.1 : ℕ) : ℤ) - 1 ∨ y = 0 ∨
      y = (((generateMaze cols rows rng).2.2 : ℕ) : ℤ) - 1)
    (hx0 : 0 ≤ x) (hx1 : x ≤ (((generateMaze cols rows rng).2.1 : ℕ) : ℤ) - 1)
    (hy0 : 0 ≤ y) (hy1 : y ≤ (((generateMaze cols rows rng).2.2 : ℕ) : ℤ) - 1) :
    (generateMaze cols rows rng).1 x y = 1 := by
  have hdims : (generateMaze cols rows rng).2 = (oddAdjust cols, oddAdjust rows) :=
    generateMaze_dims cols rows rng
  rw [hdims] at hb hx1 hy1
  simp only [] at hb hx1 hy1
  apply (generateMaze_facts cols rows rng).2.1 (x, y)
  simp only []
  omega

/-- C9 witness: the border theorem applied to the 3×3 maze at (0,0). -/
theorem maze_border_walls_witness :
    ((0:ℤ) = 0 ∨ (0:ℤ) = (((generateMaze 3 3 (fun _ => 0)).2.1 : ℕ) : ℤ) - 1 ∨ (0:ℤ) = 0 ∨
      (0:ℤ) = (((generateMaze 3 3 (fun _ => 0)).2.2 : ℕ) : ℤ) - 1) ∧
    (generateMaze 3 3 (fun _ => 0)).1 0 0 = 1 := by
  refine ⟨Or.inl rfl, ?_⟩
  apply maze_border_walls 3 3 (fun _ => 0) 0 0 (Or.inl rfl) (by norm_num)
  · norm_num [generateMaze_dims, oddAdjust]
  · norm_num
  · norm_num [generateMaze_dims, oddAdjust]

end AntsDemo
